/-
  Verification of the schema path transformation engine
  (src/services/schema_converter.py and src/models/schema.py).

  The embedding models Python JSON-like values as the inductive `Json`,
  Python `dict`s as ordered association lists (`List (Str × Json)`) with
  Python-dict update semantics (`setKey` replaces the value at an existing
  key in place, otherwise appends), and Python `str` as `List Char`.
  Code that can raise an exception is modelled with `Option` (`none` =
  the Python call raises).  Unbounded recursion (the flattener can recurse
  through the definitions table via `$ref`, and Python would hit its
  recursion limit on cyclic references) is modelled with an explicit fuel
  parameter; `none` on fuel exhaustion corresponds to `RecursionError`.
-/
import Mathlib

/-- Python strings, modelled as lists of characters. -/
abbrev Str := List Char

/-- A Python JSON-like value (the untyped trees `schema_converter.py`
    manipulates).  Objects are ordered association lists, as Python dicts
    preserve insertion order. -/
inductive Json where
  | null : Json
  | bool : Bool → Json
  | num : Int → Json
  | str : Str → Json
  | arr : List Json → Json
  | obj : List (Str × Json) → Json
deriving Repr

instance : Inhabited Json := ⟨Json.null⟩

mutual

/-- Structural equality test on `Json` (Python `==` up to dict ordering is
    treated separately; this is plain constructor equality). -/
def Json.beq : Json → Json → Bool
  | .null, .null => true
  | .bool a, .bool b => a = b
  | .num a, .num b => a = b
  | .str a, .str b => a = b
  | .arr a, .arr b => Json.beqList a b
  | .obj a, .obj b => Json.beqFields a b
  | _, _ => false

/-- Elementwise `Json.beq` on lists. -/
def Json.beqList : List Json → List Json → Bool
  | [], [] => true
  | x :: xs, y :: ys => Json.beq x y && Json.beqList xs ys
  | _, _ => false

/-- Elementwise `Json.beq` on association lists. -/
def Json.beqFields : List (Str × Json) → List (Str × Json) → Bool
  | [], [] => true
  | (k1, v1) :: xs, (k2, v2) :: ys =>
      decide (k1 = k2) && Json.beq v1 v2 && Json.beqFields xs ys
  | _, _ => false

end

mutual

def Json.beq_iff : ∀ (a b : Json), Json.beq a b = true ↔ a = b
  | .null, b => by cases b <;> simp [Json.beq]
  | .bool x, b => by cases b <;> simp [Json.beq]
  | .num x, b => by cases b <;> simp [Json.beq]
  | .str x, b => by cases b <;> simp [Json.beq]
  | .arr xs, b => by
      cases b <;> simp [Json.beq]
      exact Json.beqList_iff xs _
  | .obj xs, b => by
      cases b <;> simp [Json.beq]
      exact Json.beqFields_iff xs _

def Json.beqList_iff : ∀ (xs ys : List Json),
    Json.beqList xs ys = true ↔ xs = ys
  | [], ys => by cases ys <;> simp [Json.beqList]
  | x :: xs, ys => by
      cases ys with
      | nil => simp [Json.beqList]
      | cons y ys =>
          simp [Json.beqList, Json.beq_iff x y, Json.beqList_iff xs ys]

def Json.beqFields_iff : ∀ (xs ys : List (Str × Json)),
    Json.beqFields xs ys = true ↔ xs = ys
  | [], ys => by cases ys <;> simp [Json.beqFields]
  | (k, v) :: xs, ys => by
      cases ys with
      | nil => simp [Json.beqFields]
      | cons y ys =>
          obtain ⟨k2, v2⟩ := y
          simp [Json.beqFields, Json.beq_iff v v2, Json.beqFields_iff xs ys,
            and_assoc, Prod.ext_iff]

end

instance : DecidableEq Json := fun a b =>
  decidable_of_iff (Json.beq a b = true) (Json.beq_iff a b)

/-- `d[k]` lookup on a Python dict: first (and, for genuine dicts, only)
    binding of the key. -/
def lookupKey {α : Type} : List (Str × α) → Str → Option α
  | [], _ => none
  | (k', v') :: rest, k => if k' = k then some v' else lookupKey rest k

/-- `k in d` on a Python dict. -/
def hasKey {α : Type} (kvs : List (Str × α)) (k : Str) : Bool :=
  (lookupKey kvs k).isSome

/-- `d[k] = v` on a Python dict: update in place if the key exists
    (keeping its position), otherwise append at the end. -/
def setKey {α : Type} : List (Str × α) → Str → α → List (Str × α)
  | [], k, v => [(k, v)]
  | (k', v') :: rest, k, v =>
      if k' = k then (k, v) :: rest else (k', v') :: setKey rest k v

/-- `node.get(k)` on a `Json` value: a lookup that only succeeds on
    objects. -/
def Json.get : Json → Str → Option Json
  | .obj kvs, k => lookupKey kvs k
  | _, _ => none

/-- `node[k] = v` inside a `Json` object (identity on non-objects; the
    embedding only uses it on objects). -/
def Json.set : Json → Str → Json → Json
  | .obj kvs, k, v => .obj (setKey kvs k v)
  | j, _, _ => j

/-- `prop_def.get("type", "")` followed by comparison against a string:
    a missing or non-string value never equals a string literal, which the
    default `""`-and-compare in the source reproduces. -/
def getStr (kvs : List (Str × Json)) (k : Str) : Str :=
  match lookupKey kvs k with
  | some (.str s) => s
  | _ => []

/-- Python `s.split('.')`: always non-empty, `""` splits to `[""]`. -/
def splitDot : Str → List Str
  | [] => [[]]
  | c :: rest =>
      if c = '.' then [] :: splitDot rest
      else
        match splitDot rest with
        | s :: ss => (c :: s) :: ss
        | [] => [[c]]

/-- Worker for `replaceSub`, structurally recursive on a step budget so
    that it evaluates inside the kernel; the budget only needs to cover
    the string's length (each step strictly shortens the string), and
    the `0` arm is unreachable from `replaceSub`. -/
def replaceFuel (pat rep : Str) : Nat → Str → Str
  | _, [] => []
  | 0, s => s
  | fuel + 1, c :: rest =>
      if pat ≠ [] ∧ pat.isPrefixOf (c :: rest) then
        rep ++ replaceFuel pat rep fuel ((c :: rest).drop pat.length)
      else
        c :: replaceFuel pat rep fuel rest

/-- Python `s.replace(pat, rep)` for a non-empty pattern: left-to-right,
    non-overlapping replacement of every occurrence. -/
def replaceSub (pat rep : Str) (s : Str) : Str := replaceFuel pat rep s.length s

/-- Python `'[*]' in segment`: some position of the segment starts the
    marker. -/
def hasStar : Str → Bool
  | [] => false
  | c :: rest => "[*]".data.isPrefixOf (c :: rest) || hasStar rest

/-- Python `segment.replace('[*]', '')`. -/
def stripStar (s : Str) : Str := replaceSub "[*]".data [] s

/-! ## Key-string constants of the schema grammar -/

def typeK : Str := "type".data
def propertiesK : Str := "properties".data
def itemsK : Str := "items".data
def refK : Str := "$ref".data
def definitionsK : Str := "definitions".data
def inferenceTypeK : Str := "inferenceType".data
def instructionK : Str := "instruction".data
def objectV : Str := "object".data
def arrayV : Str := "array".data
def defMarker : Str := "#/definitions/".data
def pct20 : Str := "%20".data
def spaceV : Str := " ".data
def starSuffix : Str := "[*]".data

/-! ## SchemaFlattener (src/services/schema_converter.py) -/

/-- `SchemaFlattener._has_nested_properties`, test for one property:
    a dict is "nested" when it carries `$ref`, or is `type == "object"`
    with a `properties` key, or `type == "array"` whose `items` is a dict
    of `type == "object"` with a `properties` key. -/
def nestedTrigger (prop_def : Json) : Bool :=
  match prop_def with
  | .obj kvs =>
      hasKey kvs refK ||
      (getStr kvs typeK = objectV && hasKey kvs propertiesK) ||
      (getStr kvs typeK = arrayV &&
        (match lookupKey kvs itemsK with
         | some (.obj ikvs) =>
             getStr ikvs typeK = objectV && hasKey ikvs propertiesK
         | _ => false))
  | _ => false

/-- `SchemaFlattener._has_nested_properties`. -/
def _has_nested_properties (properties : List (Str × Json)) : Bool :=
  properties.any fun p => nestedTrigger p.2

/-- `SchemaFlattener.is_nested_schema`.  The source raises if a present
    `properties` value is not a mapping; the theorems that rely on this
    function carry that precondition explicitly (spec §7 calls a
    non-mapping `properties` a loading-layer precondition violation). -/
def is_nested_schema (schema : List (Str × Json)) : Bool :=
  match lookupKey schema propertiesK with
  | some (.obj props) => _has_nested_properties props
  | _ => false

/-- `SchemaFlattener._build_nested_path`: kept for interface
    compatibility in the source, returns the flat path unchanged. -/
def _build_nested_path (flat_path : Str) : Str := flat_path

/-- `SchemaFlattener._flatten_properties`.  `fuel` bounds the recursion
    depth (Python would raise `RecursionError` on, e.g., cyclic `$ref`
    chains); every recursive call consumes one unit.  `none` models a
    raised exception: fuel exhaustion, a non-mapping `properties` value
    reached by iteration, or a non-string `$ref` value. -/
def _flatten_properties (defs : List (Str × Json)) :
    Nat → List (Str × Json) → Str → List (Str × Json) → List (Str × Str) →
    Option (List (Str × Json) × List (Str × Str))
  | 0, _, _, _, _ => none
  | _ + 1, [], _, flat, pmap => some (flat, pmap)
  | fuel + 1, (prop_name, prop_def) :: rest, pre, flat, pmap =>
    match prop_def with
    | .obj kvs =>
      let current_path := if pre.isEmpty then prop_name else pre ++ '.' :: prop_name
      match lookupKey kvs refK with
      | some (.str ref_path) =>
          if defMarker.isPrefixOf ref_path then
            let def_name := replaceSub pct20 spaceV (replaceSub defMarker [] ref_path)
            if hasKey defs def_name then
              match lookupKey defs def_name with
              | some (.obj defKvs) =>
                  (match lookupKey defKvs propertiesK with
                   | some (.obj defProps) =>
                       match _flatten_properties defs fuel defProps current_path flat pmap with
                       | none => none
                       | some (flat', pmap') =>
                           _flatten_properties defs fuel rest pre flat' pmap'
                   | some _ => none
                   | none =>
                       _flatten_properties defs fuel rest pre
                         (setKey flat current_path prop_def)
                         (setKey pmap current_path (_build_nested_path current_path)))
              | _ =>
                  _flatten_properties defs fuel rest pre
                    (setKey flat current_path prop_def)
                    (setKey pmap current_path (_build_nested_path current_path))
            else
              _flatten_properties defs fuel rest pre
                (setKey flat current_path prop_def)
                (setKey pmap current_path (_build_nested_path current_path))
          else
            _flatten_properties defs fuel rest pre
              (setKey flat current_path prop_def)
              (setKey pmap current_path (_build_nested_path current_path))
      | some _ => none
      | none =>
        if getStr kvs typeK = objectV && hasKey kvs propertiesK then
          match lookupKey kvs propertiesK with
          | some (.obj sub) =>
              (match _flatten_properties defs fuel sub current_path flat pmap with
               | none => none
               | some (flat', pmap') => _flatten_properties defs fuel rest pre flat' pmap')
          | _ => none
        else if getStr kvs typeK = arrayV && hasKey kvs itemsK then
          match lookupKey kvs itemsK with
          | some (.obj ikvs) =>
              if getStr ikvs typeK = objectV && hasKey ikvs propertiesK then
                match lookupKey ikvs propertiesK with
                | some (.obj isub) =>
                    (match _flatten_properties defs fuel isub (current_path ++ starSuffix) flat pmap with
                     | none => none
                     | some (flat', pmap') => _flatten_properties defs fuel rest pre flat' pmap')
                | _ => none
              else
                _flatten_properties defs fuel rest pre
                  (setKey flat current_path prop_def)
                  (setKey pmap current_path (_build_nested_path current_path))
          | _ =>
              _flatten_properties defs fuel rest pre
                (setKey flat current_path prop_def)
                (setKey pmap current_path (_build_nested_path current_path))
        else
          _flatten_properties defs fuel rest pre
            (setKey flat current_path prop_def)
            (setKey pmap current_path (_build_nested_path current_path))
    | _ => _flatten_properties defs fuel rest pre flat pmap

/-- `SchemaFlattener.flatten_schema`.  A non-nested schema is returned
    unchanged with an empty index.  Otherwise the properties are walked
    with the definitions table (`nested_schema.get("definitions", {})`;
    a non-mapping value would only be touched at a `$ref`, which the
    no-`$ref` theorems never reach, and is modelled as empty) and the
    result keeps every top-level entry with `properties` replaced in
    place. -/
def flatten_schema (fuel : Nat) (nested_schema : List (Str × Json)) :
    Option (List (Str × Json) × List (Str × Str)) :=
  if is_nested_schema nested_schema then
    let defs := match lookupKey nested_schema definitionsK with
      | some (.obj d) => d
      | _ => []
    match lookupKey nested_schema propertiesK with
    | some (.obj props) =>
        (match _flatten_properties defs fuel props [] [] [] with
         | none => none
         | some (flat, pmap) =>
             some (setKey nested_schema propertiesK (.obj flat), pmap))
    | some _ => none
    | none => some (setKey nested_schema propertiesK (.obj []), [])
  else
    some (nested_schema, [])

/-! ## SchemaUnflattener (src/services/schema_converter.py) -/

/-- One parsed path part: `{"type": "property"|"array", "name": ...}`. -/
inductive Seg where
  | seg_prop (name : Str)
  | seg_arr (name : Str)
deriving DecidableEq, Repr

/-- `SchemaUnflattener._parse_flat_path`: split on `.`; a segment
    containing `[*]` is an array part named by the segment with every
    `[*]` removed, anything else is a property part. -/
def _parse_flat_path (flat_path : Str) : List Seg :=
  (splitDot flat_path).map fun segment =>
    if hasStar segment then .seg_arr (stripStar segment) else .seg_prop segment

/-- The node `{"type": "object", "properties": {}}` the unflattener
    creates for a missing intermediate property part. -/
def objCanonical : Json :=
  .obj [(typeK, .str objectV), (propertiesK, .obj [])]

/-- The node `{"type": "array", "items": {"type": "object",
    "properties": {}}}` the unflattener creates for a missing array
    part. -/
def arrCanonical : Json :=
  .obj [(typeK, .str arrayV),
        (itemsK, .obj [(typeK, .str objectV), (propertiesK, .obj [])])]

/-- The loop body of `SchemaUnflattener._unflatten_property`, written as
    recursion over the parsed parts.  The Python loop mutates the nested
    dict through an aliased cursor; here each level is rebuilt with
    `setKey`, which is the same dict update.  `none` models the
    exceptions the loop can raise: descending through a node with no
    `properties` (`KeyError`), through a non-dict (`TypeError`), or
    through an array node with no `items`. -/
def unflattenGo : List Seg → Json → List (Str × Json) → Option (List (Str × Json))
  | [], _, current_level => some current_level
  | [.seg_prop prop_name], prop_def, current_level =>
      some (setKey current_level prop_name prop_def)
  | .seg_prop prop_name :: p :: parts, prop_def, current_level =>
      let node := (lookupKey current_level prop_name).getD objCanonical
      match node.get propertiesK with
      | some (.obj sub) =>
          (unflattenGo (p :: parts) prop_def sub).map fun sub' =>
            setKey current_level prop_name (node.set propertiesK (.obj sub'))
      | _ => none
  | [.seg_arr prop_name], prop_def, current_level =>
      let level1 := if hasKey current_level prop_name then current_level
                    else setKey current_level prop_name arrCanonical
      match lookupKey level1 prop_name with
      | some (.obj nodeKvs) =>
          some (setKey level1 prop_name (.obj (setKey nodeKvs itemsK prop_def)))
      | _ => none
  | .seg_arr prop_name :: p :: parts, prop_def, current_level =>
      let level1 := if hasKey current_level prop_name then current_level
                    else setKey current_level prop_name arrCanonical
      let node := (lookupKey level1 prop_name).getD arrCanonical
      match node.get itemsK with
      | some items =>
          match items.get propertiesK with
          | some (.obj sub) =>
              (unflattenGo (p :: parts) prop_def sub).map fun sub' =>
                setKey level1 prop_name
                  (node.set itemsK (items.set propertiesK (.obj sub')))
          | _ => none
      | none => none

/-- `SchemaUnflattener._unflatten_property`. -/
def _unflatten_property (flat_path : Str) (prop_def : Json)
    (nested_properties : List (Str × Json)) : Option (List (Str × Json)) :=
  unflattenGo (_parse_flat_path flat_path) prop_def nested_properties

/-- The `for flat_path, prop_def in …items()` loop of
    `unflatten_schema`, threading the accumulated nested properties. -/
def unflattenFold : List (Str × Json) → List (Str × Json) → Option (List (Str × Json))
  | [], acc => some acc
  | (flat_path, prop_def) :: rest, acc =>
      match _unflatten_property flat_path prop_def acc with
      | none => none
      | some acc' => unflattenFold rest acc'

/-- `SchemaUnflattener.unflatten_schema`.  With an empty mapping the flat
    schema is returned as-is.  Otherwise every non-`properties` entry is
    kept (in order), the flat properties are replayed through
    `_unflatten_property`, and the rebuilt `properties` is appended at
    the end (the dict comprehension drops it, the final assignment
    re-adds it last). -/
def unflatten_schema (flat_schema : List (Str × Json))
    (path_mapping : List (Str × Str)) : Option (List (Str × Json)) :=
  if path_mapping.isEmpty then
    some flat_schema
  else
    let base := flat_schema.filter fun kv => !(kv.1 = propertiesK : Bool)
    match lookupKey flat_schema propertiesK with
    | some (.obj props) =>
        (unflattenFold props []).map fun np => base ++ [(propertiesK, .obj np)]
    | some _ => none
    | none => some (base ++ [(propertiesK, .obj [])])

/-! ## Schema value object (src/models/schema.py) -/

def schemaK : Str := "$schema".data
def descriptionK : Str := "description".data
def classK : Str := "class".data
def draft07 : Str := "http://json-schema.org/draft-07/schema#".data

/-- `SchemaProperty`: the pydantic model with the three required string
    fields. -/
structure SchemaProperty where
  type : Str
  inferenceType : Str
  instruction : Str
deriving DecidableEq, Repr

/-- A value held in `Schema.properties` (`Dict[str, Any]`): either a
    validated `SchemaProperty` instance or an untouched nested fragment. -/
inductive PropVal where
  | typed (p : SchemaProperty)
  | raw (j : Json)
deriving DecidableEq, Repr

/-- The `Schema` pydantic model (field order as declared in the
    source). -/
structure Schema where
  schema : Str
  description : Str
  class_ : Str
  type : Str
  definitions : List (Str × Json)
  properties : List (Str × PropVal)
deriving DecidableEq, Repr

/-- `SchemaProperty.model_dump()`: the three fields, in declaration
    order, and nothing else. -/
def SchemaProperty.model_dump (p : SchemaProperty) : Json :=
  .obj [(typeK, .str p.type), (inferenceTypeK, .str p.inferenceType),
        (instructionK, .str p.instruction)]

/-- Serialization of one `properties` value inside `model_dump`:
    nested pydantic models become dicts, plain values pass through. -/
def PropVal.dumpJson : PropVal → Json
  | .typed p => p.model_dump
  | .raw j => j

/-- `Schema.model_dump(by_alias=True)`: the six fields under their
    aliases, in declaration order. -/
def Schema.model_dump (s : Schema) : List (Str × Json) :=
  [(schemaK, .str s.schema), (descriptionK, .str s.description),
   (classK, .str s.class_), (typeK, .str s.type),
   (definitionsK, .obj s.definitions),
   (propertiesK, .obj (s.properties.map fun kv => (kv.1, kv.2.dumpJson)))]

/-- Pydantic validation of `SchemaProperty(**prop_def)`: succeeds exactly
    when the argument is a mapping whose `type`, `inferenceType` and
    `instruction` entries are all present with string values (pydantic v2
    rejects non-string values for `str` fields; extra keys are
    ignored). -/
def coerceProp (j : Json) : Option SchemaProperty :=
  match j with
  | .obj kvs =>
      match lookupKey kvs typeK, lookupKey kvs inferenceTypeK,
            lookupKey kvs instructionK with
      | some (.str t), some (.str it), some (.str ins) => some ⟨t, it, ins⟩
      | _, _, _ => none
  | _ => none

/-- Pydantic validation of the five non-`properties` fields of
    `Schema(**data)`: `description` and `class` are required strings,
    `$schema` and `type` are strings with defaults, `definitions` is a
    mapping defaulting to `{}`; extra keys are ignored. -/
def schemaFieldsOf (d : List (Str × Json)) :
    Option (Str × Str × Str × Str × List (Str × Json)) :=
  let sch : Option Str := match lookupKey d schemaK with
    | some (.str v) => some v
    | none => some draft07
    | some _ => none
  let desc : Option Str := match lookupKey d descriptionK with
    | some (.str v) => some v
    | _ => none
  let cls : Option Str := match lookupKey d classK with
    | some (.str v) => some v
    | _ => none
  let ty : Option Str := match lookupKey d typeK with
    | some (.str v) => some v
    | none => some objectV
    | some _ => none
  let defs : Option (List (Str × Json)) := match lookupKey d definitionsK with
    | some (.obj v) => some v
    | none => some []
    | some _ => none
  match sch, desc, cls, ty, defs with
  | some a, some b, some c, some t, some df => some (a, b, c, t, df)
  | _, _, _, _, _ => none

/-- `Schema(**nested_dict)`: field validation plus the required
    `properties` mapping, whose values stay untyped. -/
def schemaOfDict (d : List (Str × Json)) : Option Schema :=
  match schemaFieldsOf d with
  | none => none
  | some (a, b, c, t, df) =>
      match lookupKey d propertiesK with
      | some (.obj v) =>
          some ⟨a, b, c, t, df, v.map fun kv => (kv.1, PropVal.raw kv.2)⟩
      | _ => none

/-- `Schema.flatten_for_optimization`: dump, flatten, then rebuild a
    `Schema` whose properties are the flat leaves that validate as
    `SchemaProperty`; every leaf that fails validation is skipped (the
    logged warning carries no data and is not modelled). -/
def Schema.flatten_for_optimization (fuel : Nat) (s : Schema) :
    Option (Schema × List (Str × Str)) :=
  match flatten_schema fuel s.model_dump with
  | none => none
  | some (flattened_dict, path_mapping) =>
      let fprops := match lookupKey flattened_dict propertiesK with
        | some (.obj l) => l
        | _ => []
      let flattened_properties : List (Str × PropVal) :=
        fprops.filterMap fun kv =>
          (coerceProp kv.2).map fun p => (kv.1, PropVal.typed p)
      match schemaFieldsOf
          (flattened_dict.filter fun kv => !(kv.1 = propertiesK : Bool)) with
      | none => none
      | some (a, b, c, t, df) =>
          some (⟨a, b, c, t, df, flattened_properties⟩, path_mapping)

/-- `Schema.unflatten_from_optimization`: with an empty mapping the flat
    schema is returned as-is, without touching the unflattener;
    otherwise the flat schema is dumped, unflattened and re-validated. -/
def Schema.unflatten_from_optimization (_self flat_schema : Schema)
    (path_mapping : List (Str × Str)) : Option Schema :=
  if path_mapping.isEmpty then some flat_schema
  else
    match unflatten_schema flat_schema.model_dump path_mapping with
    | none => none
    | some nested_dict => schemaOfDict nested_dict

/-! ## Shape predicates used by the claim statements -/

/-- The document's `properties` value, when present, is a mapping.  When
    it is not, the Python detector/flattener raise on it (spec §7 calls
    that a loading-layer precondition violation), so the theorems carry
    this as a hypothesis. -/
def propsMappingOk (D : List (Str × Json)) : Bool :=
  match lookupKey D propertiesK with
  | some (.obj _) => true
  | some _ => false
  | none => true

/-- The top-level properties of a document (`schema["properties"]`,
    empty when absent or not a mapping). -/
def propsListOf (D : List (Str × Json)) : List (Str × Json) :=
  match lookupKey D propertiesK with
  | some (.obj l) => l
  | _ => []

/-- One property node's `properties`/`items.properties` values, when
    present, are mappings (the shape §3 of the spec assumes for
    SchemaNode). -/
def nodeShapeOk (pd : Json) : Bool :=
  match pd with
  | .obj kvs =>
      (match lookupKey kvs propertiesK with
       | some (.obj _) => true
       | some _ => false
       | none => true) &&
      (match lookupKey kvs itemsK with
       | some (.obj ikvs) =>
           (match lookupKey ikvs propertiesK with
            | some (.obj _) => true
            | some _ => false
            | none => true)
       | _ => true)
  | _ => true

/-- A node the flattener records verbatim as a terminal leaf: a dict
    with no `$ref`, not an object carrying `properties`, and not an
    array carrying `items`. -/
def terminalLeaf (j : Json) : Bool :=
  match j with
  | .obj kvs =>
      !(hasKey kvs refK) &&
      !(getStr kvs typeK = objectV && hasKey kvs propertiesK : Bool) &&
      !(getStr kvs typeK = arrayV && hasKey kvs itemsK : Bool)
  | _ => false

/-- `unflatten_schema ∘ flatten_schema`. -/
def roundTrip (fuel : Nat) (D : List (Str × Json)) :
    Option (List (Str × Json)) :=
  (flatten_schema fuel D).bind fun fm => unflatten_schema fm.1 fm.2

/-- Name of a parsed path part. -/
def segName : Seg → Str
  | .seg_prop n => n
  | .seg_arr n => n

/-- The name of the first parsed part of a flat path (the top-level
    property it lands in). -/
def headNameOfPath (p : Str) : Str :=
  match _parse_flat_path p with
  | [] => []
  | s :: _ => segName s

/-! ## The nested-document grammar of the round-trip claim

A `GProps` is a properties mapping built from the constructs the
Flattener decomposes: terminal leaf dicts, `{"type": "object",
"properties": …}` nodes and `{"type": "array", "items": {"type":
"object", "properties": …}}` nodes, in the exact shapes the
Unflattener rebuilds. -/

inductive GProps where
  | nil : GProps
  | leafCons (name : Str) (kvs : List (Str × Json)) (rest : GProps)
  | objCons (name : Str) (sub : GProps) (rest : GProps)
  | arrCons (name : Str) (sub : GProps) (rest : GProps)
deriving DecidableEq, Repr

/-- The JSON properties mapping a `GProps` denotes. -/
def GProps.toJson : GProps → List (Str × Json)
  | .nil => []
  | .leafCons n kvs r => (n, .obj kvs) :: r.toJson
  | .objCons n sub r =>
      (n, .obj [(typeK, .str objectV), (propertiesK, .obj sub.toJson)]) :: r.toJson
  | .arrCons n sub r =>
      (n, .obj [(typeK, .str arrayV),
        (itemsK, .obj [(typeK, .str objectV), (propertiesK, .obj sub.toJson)])]) :: r.toJson

/-- Top-level property names of a `GProps`. -/
def GProps.names : GProps → List Str
  | .nil => []
  | .leafCons n _ r => n :: r.names
  | .objCons n _ r => n :: r.names
  | .arrCons n _ r => n :: r.names

/-- A property name the path grammar can carry losslessly: non-empty,
    no `.` separator, no `[*]` marker. -/
def nameOk (n : Str) : Bool :=
  !n.isEmpty && !(decide ('.' ∈ n)) && !hasStar n

/-- Well-formedness of a `GProps`: clean distinct names at every level,
    terminal leaves genuinely terminal, and every object/array node
    non-empty (an empty `properties` flattens to nothing and cannot be
    rebuilt). -/
def GProps.wf : GProps → Bool
  | .nil => true
  | .leafCons n kvs r =>
      nameOk n && terminalLeaf (.obj kvs) && !(decide (n ∈ r.names)) && r.wf
  | .objCons n sub r =>
      nameOk n && !(decide (sub = GProps.nil)) && sub.wf &&
      !(decide (n ∈ r.names)) && r.wf
  | .arrCons n sub r =>
      nameOk n && !(decide (sub = GProps.nil)) && sub.wf &&
      !(decide (n ∈ r.names)) && r.wf

/-- Enough fuel for `_flatten_properties` to walk this `GProps`. -/
def GProps.fuelNeed : GProps → Nat
  | .nil => 1
  | .leafCons _ _ r => 1 + r.fuelNeed
  | .objCons _ sub r => 1 + sub.fuelNeed + r.fuelNeed
  | .arrCons _ sub r => 1 + sub.fuelNeed + r.fuelNeed

/-- `current_path` composition of `_flatten_properties`. -/
def joinPath (pre n : Str) : Str :=
  if pre.isEmpty then n else pre ++ '.' :: n

/-- The flat leaves (path, node) the flattener produces from a `GProps`
    under a path prefix, in traversal order. -/
def GProps.flatList (pre : Str) : GProps → List (Str × Json)
  | .nil => []
  | .leafCons n kvs r => (joinPath pre n, .obj kvs) :: flatList pre r
  | .objCons n sub r => flatList (joinPath pre n) sub ++ flatList pre r
  | .arrCons n sub r => flatList (joinPath pre n ++ starSuffix) sub ++ flatList pre r

/-- The same leaves with their paths as parsed segment lists. -/
def GProps.flatSegs : GProps → List (List Seg × Json)
  | .nil => []
  | .leafCons n kvs r => ([.seg_prop n], .obj kvs) :: flatSegs r
  | .objCons n sub r =>
      (flatSegs sub).map (fun pj => (.seg_prop n :: pj.1, pj.2)) ++ flatSegs r
  | .arrCons n sub r =>
      (flatSegs sub).map (fun pj => (.seg_arr n :: pj.1, pj.2)) ++ flatSegs r

/-- Rendering of one segment into the path string. -/
def renderSeg : Seg → Str
  | .seg_prop n => n
  | .seg_arr n => n ++ starSuffix

/-- Rendering of a segment list into a dot-joined path string. -/
def renderPath : List Seg → Str
  | [] => []
  | [s] => renderSeg s
  | s :: rest => renderSeg s ++ '.' :: renderPath rest

/-- Path rendering under a (possibly empty) accumulated prefix. -/
def joinRender (pre : Str) (s : List Seg) : Str :=
  if pre.isEmpty then renderPath s else pre ++ '.' :: renderPath s

/-- The object node the unflattener materialises for a property
    segment, with the given sub-properties. -/
def objNodeOf (sub : List (Str × Json)) : Json :=
  .obj [(typeK, .str objectV), (propertiesK, .obj sub)]

/-- The array node the unflattener materialises for an array segment,
    with the given item sub-properties. -/
def arrNodeOf (sub : List (Str × Json)) : Json :=
  .obj [(typeK, .str arrayV),
        (itemsK, .obj [(typeK, .str objectV), (propertiesK, .obj sub)])]

/-- Replay of a list of (parsed path, leaf) pairs through
    `unflattenGo`, threading the accumulator. -/
def foldSegs : List (List Seg × Json) → List (Str × Json) → Option (List (Str × Json))
  | [], acc => some acc
  | (s, j) :: rest, acc =>
      match unflattenGo s j acc with
      | none => none
      | some acc' => foldSegs rest acc'

/-- Spec §4.1, per node (stated from the claim's words, to be compared
    with `nestedTrigger` from the source): the node is a dict carrying
    `$ref`, or `type == "object"` with a `properties` sub-mapping, or
    `type == "array"` whose `items` is `type == "object"` with a
    `properties` sub-mapping. -/
def nestedTriggerSpec (pd : Json) : Prop :=
  ∃ kvs, pd = Json.obj kvs ∧
    (hasKey kvs refK = true ∨
     (getStr kvs typeK = objectV ∧
        ∃ sub, lookupKey kvs propertiesK = some (Json.obj sub)) ∨
     (getStr kvs typeK = arrayV ∧
        ∃ ikvs, lookupKey kvs itemsK = some (Json.obj ikvs) ∧
          getStr ikvs typeK = objectV ∧
          ∃ isub, lookupKey ikvs propertiesK = some (Json.obj isub)))

/-- Spec §4.1 at document level: some top-level property triggers
    nesting. -/
def nestedSpecOf (D : List (Str × Json)) : Prop :=
  ∃ n pd, (n, pd) ∈ propsListOf D ∧ nestedTriggerSpec pd

/-- The flat `properties` mapping of a flattened document (the local
    binding `flattened_dict.get("properties", {})` of
    `flatten_for_optimization`). -/
def fpropsOf (flattened_dict : List (Str × Json)) : List (Str × Json) :=
  match lookupKey flattened_dict propertiesK with
  | some (.obj l) => l
  | _ => []

/-! ## Concrete documents used by the claim instances -/

/-- A document with a single resolvable `$ref` property: the definition
    `X` is an object with one leaf `y`. -/
def c1RefD : List (Str × Json) :=
  [(typeK, Json.str objectV),
   (definitionsK, Json.obj [("X".data, Json.obj
      [(typeK, Json.str objectV),
       (propertiesK, Json.obj [("y".data, Json.obj
          [(typeK, Json.str "string".data)])])])]),
   (propertiesK, Json.obj [("a".data, Json.obj
      [(refK, Json.str "#/definitions/X".data)])])]

/-- What the round trip makes of `c1RefD`: property `a` comes back as an
    expanded object node, not as the original `$ref` node. -/
def c1RefOut : List (Str × Json) :=
  [(typeK, Json.str objectV),
   (definitionsK, Json.obj [("X".data, Json.obj
      [(typeK, Json.str objectV),
       (propertiesK, Json.obj [("y".data, Json.obj
          [(typeK, Json.str "string".data)])])])]),
   (propertiesK, Json.obj [("a".data, Json.obj
      [(typeK, Json.str objectV),
       (propertiesK, Json.obj [("y".data, Json.obj
          [(typeK, Json.str "string".data)])])])])]

/-- A small nested properties tree in the round-trip grammar: object `a`
    holding leaf `b`. -/
def c1WP : GProps :=
  .objCons "a".data
    (.leafCons "b".data [(typeK, Json.str "string".data)] .nil) .nil

/-- A document carrying `c1WP` as its `properties`. -/
def c1WD : List (Str × Json) :=
  [(typeK, Json.str objectV), (propertiesK, Json.obj c1WP.toJson)]

/-- A document with one property of `type: "object"` whose `properties`
    sub-mapping is empty: nested-detection fires, yet flattening it
    produces no leaves. -/
def c3D : List (Str × Json) :=
  [(propertiesK, Json.obj [("a".data, Json.obj
      [(typeK, Json.str objectV), (propertiesK, Json.obj [])])])]

/-- A small nested properties tree: array `xs` of objects holding leaf
    `v`. -/
def c3WP : GProps :=
  .arrCons "xs".data
    (.leafCons "v".data [(typeK, Json.str "number".data)] .nil) .nil

/-- A document carrying `c3WP` as its `properties`. -/
def c3WD : List (Str × Json) :=
  [(typeK, Json.str objectV), (propertiesK, Json.obj c3WP.toJson)]

/-- A leaf with all three optimizer fields. -/
def goodLeaf : Json := Json.obj
  [(typeK, Json.str "string".data), (inferenceTypeK, Json.str "explicit".data),
   (instructionK, Json.str "desc".data)]

/-- A malformed leaf: `inferenceType` and `instruction` are missing. -/
def badLeaf : Json := Json.obj
  [(typeK, Json.str "string".data), ("note".data, Json.str "extra".data)]

/-- A held schema whose object `a` carries one well-formed and one
    malformed leaf. -/
def c8S : Schema :=
  ⟨draft07, "doc".data, "Invoice".data, objectV, [],
   [("a".data, PropVal.raw (Json.obj
      [(typeK, Json.str objectV),
       (propertiesK, Json.obj
         [("good".data, goodLeaf), ("bad".data, badLeaf)])]))]⟩

/-- The flattened dict of `c8S.model_dump`: both leaves appear under
    their dotted paths. -/
def c8Fd : List (Str × Json) :=
  [(schemaK, Json.str draft07),
   (descriptionK, Json.str "doc".data),
   (classK, Json.str "Invoice".data),
   (typeK, Json.str objectV),
   (definitionsK, Json.obj []),
   (propertiesK, Json.obj
     [("a.good".data, goodLeaf), ("a.bad".data, badLeaf)])]

/-- The path index of flattening `c8S.model_dump`: both leaves are
    recorded, including the one later dropped by coercion. -/
def c8Pm : List (Str × Str) :=
  [("a.good".data, "a.good".data), ("a.bad".data, "a.bad".data)]

/-- A leaf with the three optimizer fields plus an extra key `unit`. -/
def c9GoodLeaf : Json := Json.obj
  [(typeK, Json.str "number".data), (inferenceTypeK, Json.str "inferred".data),
   (instructionK, Json.str "total".data), ("unit".data, Json.str "usd".data)]

/-- A held schema whose array property `items` holds one leaf carrying
    an extra key. -/
def c9S : Schema :=
  ⟨draft07, "doc".data, "Receipt".data, objectV, [],
   [("items".data, PropVal.raw (Json.obj
      [(typeK, Json.str arrayV),
       (itemsK, Json.obj
         [(typeK, Json.str objectV),
          (propertiesK, Json.obj [("total".data, c9GoodLeaf)])])]))]⟩

/-- The flattened schema produced from `c9S`: one typed leaf at
    `items[*].total`. -/
def c9T : Schema :=
  ⟨draft07, "doc".data, "Receipt".data, objectV, [],
   [("items[*].total".data,
     PropVal.typed ⟨"number".data, "inferred".data, "total".data⟩)]⟩

/-- The path index produced from `c9S`. -/
def c9Pm : List (Str × Str) :=
  [("items[*].total".data, "items[*].total".data)]

/-- The single retained property of the flattening of `c9S`. -/
def c9NV : Str × PropVal :=
  ("items[*].total".data,
   PropVal.typed ⟨"number".data, "inferred".data, "total".data⟩)

/-! ## Helper lemmas on the dict model -/

theorem lookupKey_setKey_self {α : Type} (l : List (Str × α)) (k : Str) (v : α) :
    lookupKey (setKey l k v) k = some v := by
  induction l with
  | nil => simp [setKey, lookupKey]
  | cons kv rest ih =>
      obtain ⟨k', v'⟩ := kv
      by_cases h : k' = k <;> simp [setKey, lookupKey, h, ih]

theorem lookupKey_setKey_ne {α : Type} (l : List (Str × α)) (k k' : Str) (v : α)
    (h : k ≠ k') : lookupKey (setKey l k v) k' = lookupKey l k' := by
  induction l with
  | nil => simp [setKey, lookupKey, h]
  | cons kv rest ih =>
      obtain ⟨k0, v0⟩ := kv
      by_cases h0 : k0 = k
      · subst h0
        simp [setKey, lookupKey, h]
      · simp [setKey, h0, lookupKey, ih]

theorem setKey_of_lookup_none {α : Type} (l : List (Str × α)) (k : Str) (v : α)
    (h : lookupKey l k = none) : setKey l k v = l ++ [(k, v)] := by
  induction l with
  | nil => simp [setKey]
  | cons kv rest ih =>
      obtain ⟨k0, v0⟩ := kv
      by_cases h0 : k0 = k
      · simp [lookupKey, h0] at h
      · simp [lookupKey, h0] at h
        simp [setKey, h0, ih h]

theorem lookupKey_append_left {α : Type} (l1 l2 : List (Str × α)) (k : Str) (v : α)
    (h : lookupKey l1 k = some v) : lookupKey (l1 ++ l2) k = some v := by
  induction l1 with
  | nil => simp [lookupKey] at h
  | cons kv rest ih =>
      obtain ⟨k0, v0⟩ := kv
      by_cases h0 : k0 = k
      · simp [lookupKey, h0] at h ⊢
        exact h
      · simp [lookupKey, h0] at h ⊢
        exact ih h

theorem lookupKey_append_none {α : Type} (l1 l2 : List (Str × α)) (k : Str)
    (h : lookupKey l1 k = none) : lookupKey (l1 ++ l2) k = lookupKey l2 k := by
  induction l1 with
  | nil => simp
  | cons kv rest ih =>
      obtain ⟨k0, v0⟩ := kv
      by_cases h0 : k0 = k
      · simp [lookupKey, h0] at h
      · simp [lookupKey, h0] at h ⊢
        exact ih h

theorem lookupKey_eq_none_iff {α : Type} (l : List (Str × α)) (k : Str) :
    lookupKey l k = none ↔ k ∉ l.map Prod.fst := by
  induction l with
  | nil => simp [lookupKey]
  | cons kv rest ih =>
      obtain ⟨k0, v0⟩ := kv
      by_cases h0 : k0 = k
      · subst h0
        simp only [lookupKey, if_pos rfl, List.map_cons, List.mem_cons]
        constructor
        · intro h
          cases h
        · intro h
          exact absurd (Or.inl trivial) h
      · simp only [lookupKey, if_neg h0, List.map_cons, List.mem_cons, ih]
        constructor
        · intro h hor
          rcases hor with h1 | h2
          · exact h0 h1.symm
          · exact h h2
        · intro h h2
          exact h (Or.inr h2)

theorem lookupKey_mem {α : Type} (l : List (Str × α)) (k : Str) (v : α)
    (h : lookupKey l k = some v) : (k, v) ∈ l := by
  induction l with
  | nil => simp [lookupKey] at h
  | cons kv rest ih =>
      obtain ⟨k0, v0⟩ := kv
      by_cases h0 : k0 = k
      · simp [lookupKey, h0] at h
        simp [h0, h]
      · simp [lookupKey, h0] at h
        simp [ih h]

/-! ## Claim C5 -/

/-- C5: when nested-detection is false the flattener is an exact
    identity: it returns the very input document paired with an empty
    index, for every fuel value (the fast path performs no recursion).
    The `propsMappingOk` hypothesis excludes documents on which the
    Python detector itself raises (non-mapping `properties`), which the
    spec assigns to the excluded loading layer. -/
theorem flatten_schema_fastPath (D : List (Str × Json)) (fuel : Nat)
    (hok : propsMappingOk D = true)
    (h : is_nested_schema D = false) : flatten_schema fuel D = some (D, []) := by
  simp [flatten_schema, h]

/-- Witness for C5 on a concrete flat document. -/
theorem flatten_schema_fastPath_witness :
    propsMappingOk [(propertiesK, Json.obj [("a".data, Json.obj [(typeK, Json.str "string".data)])])] = true ∧
    is_nested_schema [(propertiesK, Json.obj [("a".data, Json.obj [(typeK, Json.str "string".data)])])] = false ∧
    flatten_schema 0 [(propertiesK, Json.obj [("a".data, Json.obj [(typeK, Json.str "string".data)])])] =
      some ([(propertiesK, Json.obj [("a".data, Json.obj [(typeK, Json.str "string".data)])])], []) :=
  ⟨by decide, by decide, flatten_schema_fastPath _ 0 (by decide) (by decide)⟩

/-! ## Claim C6 -/

/-- C6: with an empty path index `unflatten_schema` returns the flat
    document unchanged, and the document-level
    `Schema.unflatten_from_optimization` returns the given flat schema
    as-is (its else-branch, which invokes the unflattener, is never
    reached). -/
theorem unflatten_empty_mapping :
    (∀ F : List (Str × Json), unflatten_schema F [] = some F) ∧
    (∀ s flat : Schema, Schema.unflatten_from_optimization s flat [] = some flat) := by
  constructor
  · intro F
    simp [unflatten_schema]
  · intro s flat
    simp [Schema.unflatten_from_optimization]

/-! ## Claim C10 -/

/-- C10: the reconstructed document depends only on the flat document;
    any two non-empty path indices give identical results, since the
    index is consulted solely through its emptiness test. -/
theorem unflatten_ignores_mapping (F : List (Str × Json))
    (m1 m2 : List (Str × Str)) (h1 : m1 ≠ []) (h2 : m2 ≠ []) :
    unflatten_schema F m1 = unflatten_schema F m2 := by
  have e1 : m1.isEmpty = false := by
    cases m1 with
    | nil => exact absurd rfl h1
    | cons a l => rfl
  have e2 : m2.isEmpty = false := by
    cases m2 with
    | nil => exact absurd rfl h2
    | cons a l => rfl
  simp [unflatten_schema, e1, e2]

/-- Witness for C10 at a concrete flat document and two concrete
    distinct indices. -/
theorem unflatten_ignores_mapping_witness :
    unflatten_schema [(propertiesK, Json.obj [("a".data, Json.null)])]
        [("x".data, "x".data)] =
      unflatten_schema [(propertiesK, Json.obj [("a".data, Json.null)])]
        [("y".data, "y".data), ("z".data, "z".data)] :=
  unflatten_ignores_mapping _ _ _ (by decide) (by decide)

/-! ## Claim C4 -/

theorem nestedTrigger_iff_spec (pd : Json) (hs : nodeShapeOk pd = true) :
    nestedTrigger pd = true ↔ nestedTriggerSpec pd := by
  cases pd with
  | obj kvs =>
      simp only [nodeShapeOk, Bool.and_eq_true] at hs
      obtain ⟨hs1, hs2⟩ := hs
      simp only [nestedTrigger, nestedTriggerSpec, Bool.or_eq_true, Bool.and_eq_true,
        decide_eq_true_eq, Json.obj.injEq, exists_eq_left']
      rw [or_assoc]
      apply or_congr Iff.rfl
      apply or_congr
      · apply and_congr Iff.rfl
        cases hp : lookupKey kvs propertiesK with
        | none =>
            constructor
            · intro h
              simp [hasKey, hp] at h
            · rintro ⟨sub, hsub⟩
              cases hsub
        | some v =>
            rw [hp] at hs1
            cases v with
            | obj sub =>
                constructor
                · intro _
                  exact ⟨sub, rfl⟩
                · intro _
                  simp [hasKey, hp]
            | null => exact Bool.noConfusion hs1
            | bool b => exact Bool.noConfusion hs1
            | num m => exact Bool.noConfusion hs1
            | str s => exact Bool.noConfusion hs1
            | arr l => exact Bool.noConfusion hs1
      · apply and_congr Iff.rfl
        cases hi : lookupKey kvs itemsK with
        | none =>
            constructor
            · intro h
              cases h
            · rintro ⟨ikvs, hik, _⟩
              cases hik
        | some v =>
            rw [hi] at hs2
            cases v with
            | obj ikvs =>
                have hs2' : (match lookupKey ikvs propertiesK with
                    | some (Json.obj _) => true
                    | some _ => false
                    | none => true) = true := hs2
                simp only [Bool.and_eq_true, decide_eq_true_eq]
                constructor
                · rintro ⟨ht, hk⟩
                  refine ⟨ikvs, rfl, ht, ?_⟩
                  cases hip : lookupKey ikvs propertiesK with
                  | none =>
                      simp [hasKey, hip] at hk
                  | some w =>
                      rw [hip] at hs2'
                      cases w with
                      | obj isub => exact ⟨isub, rfl⟩
                      | null => exact Bool.noConfusion hs2'
                      | bool b => exact Bool.noConfusion hs2'
                      | num m => exact Bool.noConfusion hs2'
                      | str s => exact Bool.noConfusion hs2'
                      | arr l => exact Bool.noConfusion hs2'
                · rintro ⟨ikvs', heq, ht, isub, hip⟩
                  cases heq
                  refine ⟨ht, ?_⟩
                  simp [hasKey, hip]
            | null =>
                constructor
                · intro h
                  cases h
                · rintro ⟨ikvs, hik, _⟩
                  cases hik
            | bool b =>
                constructor
                · intro h
                  cases h
                · rintro ⟨ikvs, hik, _⟩
                  cases hik
            | num m =>
                constructor
                · intro h
                  cases h
                · rintro ⟨ikvs, hik, _⟩
                  cases hik
            | str s =>
                constructor
                · intro h
                  cases h
                · rintro ⟨ikvs, hik, _⟩
                  cases hik
            | arr l =>
                constructor
                · intro h
                  cases h
                · rintro ⟨ikvs, hik, _⟩
                  cases hik
  | null =>
      constructor
      · intro h
        exact Bool.noConfusion h
      · rintro ⟨kvs, hk, _⟩
        exact Json.noConfusion hk
  | bool b =>
      constructor
      · intro h
        exact Bool.noConfusion h
      · rintro ⟨kvs, hk, _⟩
        exact Json.noConfusion hk
  | num m =>
      constructor
      · intro h
        exact Bool.noConfusion h
      · rintro ⟨kvs, hk, _⟩
        exact Json.noConfusion hk
  | str s =>
      constructor
      · intro h
        exact Bool.noConfusion h
      · rintro ⟨kvs, hk, _⟩
        exact Json.noConfusion hk
  | arr l =>
      constructor
      · intro h
        exact Bool.noConfusion h
      · rintro ⟨kvs, hk, _⟩
        exact Json.noConfusion hk

/-- C4: nested-detection returns true exactly when some top-level
    property is a `$ref` node, an object with a `properties`
    sub-mapping, or an array whose items are an object with a
    `properties` sub-mapping; in particular a bare array of scalars or
    an object lacking `properties` never counts.  The hypotheses keep
    the document inside the SchemaNode data model of spec §3
    (`properties`/`items.properties` values are mappings when present),
    where the source's key-presence tests coincide with the claim's
    sub-mapping wording. -/
theorem is_nested_schema_iff_spec (D : List (Str × Json))
    (hok : propsMappingOk D = true)
    (hshape : (propsListOf D).all (fun p => nodeShapeOk p.2) = true) :
    is_nested_schema D = true ↔ nestedSpecOf D := by
  have hall : ∀ p ∈ propsListOf D, nodeShapeOk p.2 = true := by
    intro p hp
    exact List.all_eq_true.mp hshape p hp
  unfold is_nested_schema nestedSpecOf
  cases hD : lookupKey D propertiesK with
  | none =>
      simp only [propsListOf, hD]
      simp
  | some v =>
      cases v with
      | obj props =>
          have hlist : propsListOf D = props := by simp [propsListOf, hD]
          rw [hlist] at hall
          simp only [hlist, _has_nested_properties, List.any_eq_true]
          constructor
          · rintro ⟨⟨n, pd⟩, hmem, ht⟩
            exact ⟨n, pd, hmem, (nestedTrigger_iff_spec pd (hall _ hmem)).1 ht⟩
          · rintro ⟨n, pd, hmem, h⟩
            exact ⟨(n, pd), hmem, (nestedTrigger_iff_spec pd (hall _ hmem)).2 h⟩
      | null => simp [propsMappingOk, hD] at hok
      | bool b => simp [propsMappingOk, hD] at hok
      | num m => simp [propsMappingOk, hD] at hok
      | str s => simp [propsMappingOk, hD] at hok
      | arr l => simp [propsMappingOk, hD] at hok

/-- Witness for C4 on a concrete nested document (one `$ref`
    property). -/
theorem is_nested_schema_iff_spec_witness :
    is_nested_schema [(propertiesK, Json.obj [("a".data, Json.obj [(refK, Json.str "#/definitions/X".data)])])] = true ↔
      nestedSpecOf [(propertiesK, Json.obj [("a".data, Json.obj [(refK, Json.str "#/definitions/X".data)])])] :=
  is_nested_schema_iff_spec _ (by decide) (by decide)

/-! ## Claim C7 -/

theorem hasKey_eq_false_iff {α : Type} (l : List (Str × α)) (k : Str) :
    hasKey l k = false ↔ lookupKey l k = none := by
  cases h : lookupKey l k <;> simp [hasKey, h]

theorem terminalLeaf_obj (kvs : List (Str × Json))
    (h : terminalLeaf (Json.obj kvs) = true) :
    lookupKey kvs refK = none ∧
    (decide (getStr kvs typeK = objectV) && hasKey kvs propertiesK) = false ∧
    (decide (getStr kvs typeK = arrayV) && hasKey kvs itemsK) = false := by
  simp only [terminalLeaf, Bool.and_eq_true, Bool.not_eq_true'] at h
  obtain ⟨⟨h1, h2⟩, h3⟩ := h
  exact ⟨(hasKey_eq_false_iff kvs refK).mp h1, h2, h3⟩

theorem flatten_nil_step (defs : List (Str × Json)) (fuel : Nat) (pre : Str)
    (flat : List (Str × Json)) (pmap : List (Str × Str)) :
    _flatten_properties defs (fuel + 1) [] pre flat pmap = some (flat, pmap) := rfl

theorem flatten_skip_step (defs : List (Str × Json)) (fuel : Nat) (n : Str)
    (pd : Json) (hpd : ∀ kvs, pd ≠ Json.obj kvs)
    (rest : List (Str × Json)) (pre : Str)
    (flat : List (Str × Json)) (pmap : List (Str × Str)) :
    _flatten_properties defs (fuel + 1) ((n, pd) :: rest) pre flat pmap =
      _flatten_properties defs fuel rest pre flat pmap := by
  cases pd with
  | obj kvs => exact absurd rfl (hpd kvs)
  | null => rfl
  | bool x => rfl
  | num x => rfl
  | str x => rfl
  | arr x => rfl

theorem flatten_leaf_step (defs : List (Str × Json)) (fuel : Nat) (n : Str)
    (kvs rest : List (Str × Json)) (pre : Str)
    (flat : List (Str × Json)) (pmap : List (Str × Str))
    (h : terminalLeaf (Json.obj kvs) = true) :
    _flatten_properties defs (fuel + 1) ((n, Json.obj kvs) :: rest) pre flat pmap =
      _flatten_properties defs fuel rest pre
        (setKey flat (joinPath pre n) (Json.obj kvs))
        (setKey pmap (joinPath pre n) (joinPath pre n)) := by
  obtain ⟨hrefn, hobj, harr⟩ := terminalLeaf_obj _ h
  have hobjP : ¬(getStr kvs typeK = objectV ∧ hasKey kvs propertiesK = true) := by
    rintro ⟨h1, h2⟩
    rw [decide_eq_true h1, h2] at hobj
    exact Bool.noConfusion hobj
  have harrP : ¬(getStr kvs typeK = arrayV ∧ hasKey kvs itemsK = true) := by
    rintro ⟨h1, h2⟩
    rw [decide_eq_true h1, h2] at harr
    exact Bool.noConfusion harr
  simp only [_flatten_properties, hrefn, joinPath, _build_nested_path]
  rw [hobj, harr]
  simp

theorem flatten_obj_step (defs : List (Str × Json)) (fuel : Nat) (n : Str)
    (sub rest : List (Str × Json)) (pre : Str)
    (flat : List (Str × Json)) (pmap : List (Str × Str)) :
    _flatten_properties defs (fuel + 1)
      ((n, Json.obj [(typeK, Json.str objectV), (propertiesK, Json.obj sub)]) :: rest)
      pre flat pmap =
      (_flatten_properties defs fuel sub (joinPath pre n) flat pmap).bind
        (fun fp => _flatten_properties defs fuel rest pre fp.1 fp.2) := by
  simp +decide [_flatten_properties, lookupKey, getStr, hasKey, joinPath]
  cases _flatten_properties defs fuel sub (if pre = [] then n else pre ++ '.' :: n) flat pmap with
  | none => rfl
  | some fp =>
      obtain ⟨x, y⟩ := fp
      rfl

theorem flatten_arr_step (defs : List (Str × Json)) (fuel : Nat) (n : Str)
    (sub rest : List (Str × Json)) (pre : Str)
    (flat : List (Str × Json)) (pmap : List (Str × Str)) :
    _flatten_properties defs (fuel + 1)
      ((n, Json.obj [(typeK, Json.str arrayV),
        (itemsK, Json.obj [(typeK, Json.str objectV), (propertiesK, Json.obj sub)])]) :: rest)
      pre flat pmap =
      (_flatten_properties defs fuel sub (joinPath pre n ++ starSuffix) flat pmap).bind
        (fun fp => _flatten_properties defs fuel rest pre fp.1 fp.2) := by
  simp +decide [_flatten_properties, lookupKey, getStr, hasKey, joinPath]
  cases _flatten_properties defs fuel sub ((if pre = [] then n else pre ++ '.' :: n) ++ starSuffix) flat pmap with
  | none => rfl
  | some fp =>
      obtain ⟨x, y⟩ := fp
      rfl

theorem flatten_grammar_array (a b : Str) (leafB : Json) (f : Nat)
    (hB : terminalLeaf leafB = true) :
    flatten_schema (f + 4)
      [(propertiesK, Json.obj [(a, Json.obj [(typeK, Json.str arrayV),
         (itemsK, Json.obj [(typeK, Json.str objectV),
           (propertiesK, Json.obj [(b, leafB)])])])])] =
    some ([(propertiesK, Json.obj [(a ++ "[*].".data ++ b, leafB)])],
          [(a ++ "[*].".data ++ b, a ++ "[*].".data ++ b)]) := by
  obtain ⟨bkvs, rfl⟩ : ∃ bkvs, leafB = Json.obj bkvs := by
    cases leafB with
    | obj kvs => exact ⟨kvs, rfl⟩
    | null => exact Bool.noConfusion hB
    | bool x => exact Bool.noConfusion hB
    | num x => exact Bool.noConfusion hB
    | str x => exact Bool.noConfusion hB
    | arr x => exact Bool.noConfusion hB
  have hnest : is_nested_schema
      [(propertiesK, Json.obj [(a, Json.obj [(typeK, Json.str arrayV),
        (itemsK, Json.obj [(typeK, Json.str objectV),
          (propertiesK, Json.obj [(b, Json.obj bkvs)])])])])] = true := by
    simp +decide [is_nested_schema, lookupKey, _has_nested_properties,
      nestedTrigger, hasKey, getStr]
  have h4 : f + 4 = (f + 3) + 1 := rfl
  have h3 : f + 3 = (f + 2) + 1 := rfl
  have h2 : f + 2 = (f + 1) + 1 := rfl
  simp only [flatten_schema, hnest, if_true]
  simp +decide [lookupKey]
  rw [h4, flatten_arr_step, h3, flatten_leaf_step _ _ _ _ _ _ _ _ hB, h2,
    flatten_nil_step]
  simp +decide [flatten_nil_step, joinPath, setKey, starSuffix,
    List.append_assoc]

theorem flatten_grammar_objects (a b c : Str) (leafC : Json) (f : Nat)
    (ha : a ≠ []) (hC : terminalLeaf leafC = true) :
    flatten_schema (f + 4)
      [(propertiesK, Json.obj [(a, Json.obj [(typeK, Json.str objectV),
         (propertiesK, Json.obj [(b, Json.obj [(typeK, Json.str objectV),
           (propertiesK, Json.obj [(c, leafC)])])])])])] =
    some ([(propertiesK, Json.obj [(a ++ ".".data ++ b ++ ".".data ++ c, leafC)])],
          [(a ++ ".".data ++ b ++ ".".data ++ c,
            a ++ ".".data ++ b ++ ".".data ++ c)]) := by
  obtain ⟨ckvs, rfl⟩ : ∃ ckvs, leafC = Json.obj ckvs := by
    cases leafC with
    | obj kvs => exact ⟨kvs, rfl⟩
    | null => exact Bool.noConfusion hC
    | bool x => exact Bool.noConfusion hC
    | num x => exact Bool.noConfusion hC
    | str x => exact Bool.noConfusion hC
    | arr x => exact Bool.noConfusion hC
  have hnest : is_nested_schema
      [(propertiesK, Json.obj [(a, Json.obj [(typeK, Json.str objectV),
        (propertiesK, Json.obj [(b, Json.obj [(typeK, Json.str objectV),
          (propertiesK, Json.obj [(c, Json.obj ckvs)])])])])])] = true := by
    simp +decide [is_nested_schema, lookupKey, _has_nested_properties,
      nestedTrigger, hasKey, getStr]
  have h4 : f + 4 = (f + 3) + 1 := rfl
  have h3 : f + 3 = (f + 2) + 1 := rfl
  have h2 : f + 2 = (f + 1) + 1 := rfl
  simp only [flatten_schema, hnest, if_true]
  simp +decide [lookupKey]
  rw [h4, flatten_obj_step, h3, flatten_obj_step, h2,
    flatten_leaf_step _ _ _ _ _ _ _ _ hC, flatten_nil_step]
  simp +decide [flatten_nil_step, joinPath, setKey, ha, List.append_assoc]

/-- C7: the flat key for a leaf `b` inside an array-of-objects property
    `a` is exactly `a ++ "[*]." ++ b`, and the flat key for a leaf `c`
    inside object `b` inside object `a` is exactly `a ++ "." ++ b ++
    "." ++ c`: segments joined with `.`, one `[*]` appended to the array
    property's name, never an index. -/
theorem flatten_path_grammar (a b c : Str) (leafB leafC : Json) (fuel : Nat)
    (hfuel : 4 ≤ fuel) (ha : a ≠ []) (hB : terminalLeaf leafB = true)
    (hC : terminalLeaf leafC = true) :
    flatten_schema fuel
      [(propertiesK, Json.obj [(a, Json.obj [(typeK, Json.str arrayV),
         (itemsK, Json.obj [(typeK, Json.str objectV),
           (propertiesK, Json.obj [(b, leafB)])])])])] =
      some ([(propertiesK, Json.obj [(a ++ "[*].".data ++ b, leafB)])],
            [(a ++ "[*].".data ++ b, a ++ "[*].".data ++ b)]) ∧
    flatten_schema fuel
      [(propertiesK, Json.obj [(a, Json.obj [(typeK, Json.str objectV),
         (propertiesK, Json.obj [(b, Json.obj [(typeK, Json.str objectV),
           (propertiesK, Json.obj [(c, leafC)])])])])])] =
      some ([(propertiesK, Json.obj [(a ++ ".".data ++ b ++ ".".data ++ c, leafC)])],
            [(a ++ ".".data ++ b ++ ".".data ++ c,
              a ++ ".".data ++ b ++ ".".data ++ c)]) := by
  obtain ⟨f, rfl⟩ : ∃ f, fuel = f + 4 := ⟨fuel - 4, by omega⟩
  exact ⟨flatten_grammar_array a b leafB f hB,
         flatten_grammar_objects a b c leafC f ha hC⟩

/-- Witness for C7 at concrete names and a concrete leaf. -/
theorem flatten_path_grammar_witness :
    flatten_schema 4
      [(propertiesK, Json.obj [("a".data, Json.obj [(typeK, Json.str arrayV),
         (itemsK, Json.obj [(typeK, Json.str objectV),
           (propertiesK, Json.obj [("b".data, Json.obj [(typeK, Json.str "string".data)])])])])])] =
      some ([(propertiesK, Json.obj [("a".data ++ "[*].".data ++ "b".data, Json.obj [(typeK, Json.str "string".data)])])],
            [("a".data ++ "[*].".data ++ "b".data, "a".data ++ "[*].".data ++ "b".data)]) ∧
    flatten_schema 4
      [(propertiesK, Json.obj [("a".data, Json.obj [(typeK, Json.str objectV),
         (propertiesK, Json.obj [("b".data, Json.obj [(typeK, Json.str objectV),
           (propertiesK, Json.obj [("c".data, Json.obj [(typeK, Json.str "string".data)])])])])])])] =
      some ([(propertiesK, Json.obj [("a".data ++ ".".data ++ "b".data ++ ".".data ++ "c".data, Json.obj [(typeK, Json.str "string".data)])])],
            [("a".data ++ ".".data ++ "b".data ++ ".".data ++ "c".data,
              "a".data ++ ".".data ++ "b".data ++ ".".data ++ "c".data)]) :=
  flatten_path_grammar "a".data "b".data "c".data
    (Json.obj [(typeK, Json.str "string".data)])
    (Json.obj [(typeK, Json.str "string".data)]) 4
    (by decide) (by decide) (by decide) (by decide)

/-! ## Claim C2 -/

theorem setKey_append_self {α : Type} (l : List (Str × α)) (k : Str) (x y : α)
    (h : lookupKey l k = none) : setKey (l ++ [(k, x)]) k y = l ++ [(k, y)] := by
  induction l with
  | nil => simp [setKey]
  | cons kv rest ih =>
      obtain ⟨k0, v0⟩ := kv
      by_cases h0 : k0 = k
      · simp [lookupKey, h0] at h
      · simp [lookupKey, h0] at h
        simp [setKey, h0, ih h]

theorem splitDot_ne_nil (s : Str) : splitDot s ≠ [] := by
  cases s with
  | nil => simp [splitDot]
  | cons c rest =>
      by_cases h : c = '.'
      · simp [splitDot, h]
      · simp only [splitDot, if_neg h]
        cases hs : splitDot rest with
        | nil => simp
        | cons a l => simp

theorem parse_ne_nil (p : Str) : _parse_flat_path p ≠ [] := by
  simp [_parse_flat_path, splitDot_ne_nil]

theorem objCanonical_get : objCanonical.get propertiesK = some (Json.obj []) := by
  decide

theorem objCanonical_set (inner : List (Str × Json)) :
    objCanonical.set propertiesK (Json.obj inner) = objNodeOf inner := by
  simp +decide [objCanonical, objNodeOf, Json.set, setKey]

theorem arrLit_get_items :
    (Json.obj [(typeK, Json.str arrayV),
      (itemsK, Json.obj [(typeK, Json.str objectV), (propertiesK, Json.obj [])])]).get
      itemsK = some (Json.obj [(typeK, Json.str objectV), (propertiesK, Json.obj [])]) := by
  decide

theorem arrItemsLit_get :
    (Json.obj [(typeK, Json.str objectV), (propertiesK, Json.obj [])]).get propertiesK =
      some (Json.obj []) := by
  decide

theorem arrLit_set_items (pd : Json) :
    setKey [(typeK, Json.str arrayV),
      (itemsK, Json.obj [(typeK, Json.str objectV), (propertiesK, Json.obj [])])]
      itemsK pd = [(typeK, Json.str arrayV), (itemsK, pd)] := by
  simp +decide [setKey]

theorem arrLit_set_chain (inner : List (Str × Json)) :
    (Json.obj [(typeK, Json.str arrayV),
      (itemsK, Json.obj [(typeK, Json.str objectV), (propertiesK, Json.obj [])])]).set
      itemsK
      ((Json.obj [(typeK, Json.str objectV), (propertiesK, Json.obj [])]).set
        propertiesK (Json.obj inner)) = arrNodeOf inner := by
  simp +decide [arrNodeOf, Json.set, setKey]

/-- Inserting a path whose head name is absent from the level always
    succeeds and appends exactly that one name at the end. -/
theorem unflattenGo_fresh :
    ∀ (s : Seg) (parts : List Seg) (pd : Json) (lvl : List (Str × Json)),
    lookupKey lvl (segName s) = none →
    ∃ lvl', unflattenGo (s :: parts) pd lvl = some lvl' ∧
      lvl'.map Prod.fst = lvl.map Prod.fst ++ [segName s]
  | .seg_prop n, [], pd, lvl, h => by
      refine ⟨lvl ++ [(n, pd)], ?_, by simp [segName]⟩
      simp only [unflattenGo]
      rw [setKey_of_lookup_none lvl n pd h]
  | .seg_prop n, p :: ps, pd, lvl, h => by
      obtain ⟨inner, hinner, _⟩ := unflattenGo_fresh p ps pd [] rfl
      have h' : lookupKey lvl n = none := h
      refine ⟨lvl ++ [(n, objNodeOf inner)], ?_, by simp [segName]⟩
      simp only [unflattenGo, h', Option.getD_none, objCanonical_get, hinner,
        Option.map]
      rw [setKey_of_lookup_none lvl n _ h', objCanonical_set]
  | .seg_arr n, [], pd, lvl, h => by
      have h' : lookupKey lvl n = none := h
      have hhk : hasKey lvl n = false := by
        simp [hasKey, h']
      refine ⟨lvl ++ [(n, Json.obj [(typeK, Json.str arrayV), (itemsK, pd)])],
        ?_, by simp [segName]⟩
      simp only [unflattenGo, hhk, Bool.false_eq_true, if_false]
      rw [setKey_of_lookup_none lvl n arrCanonical h']
      have hexp : lookupKey (lvl ++ [(n, arrCanonical)]) n =
          some (Json.obj [(typeK, Json.str arrayV),
            (itemsK, Json.obj [(typeK, Json.str objectV), (propertiesK, Json.obj [])])]) := by
        rw [lookupKey_append_none lvl _ n h']
        simp [lookupKey, arrCanonical]
      rw [hexp]
      simp only [arrLit_set_items]
      rw [setKey_append_self lvl n _ _ h']
  | .seg_arr n, p :: ps, pd, lvl, h => by
      obtain ⟨inner, hinner, _⟩ := unflattenGo_fresh p ps pd [] rfl
      have h' : lookupKey lvl n = none := h
      have hhk : hasKey lvl n = false := by
        simp [hasKey, h']
      refine ⟨lvl ++ [(n, arrNodeOf inner)], ?_, by simp [segName]⟩
      simp only [unflattenGo, hhk, Bool.false_eq_true, if_false]
      rw [setKey_of_lookup_none lvl n arrCanonical h']
      have hexp : lookupKey (lvl ++ [(n, arrCanonical)]) n =
          some (Json.obj [(typeK, Json.str arrayV),
            (itemsK, Json.obj [(typeK, Json.str objectV), (propertiesK, Json.obj [])])]) := by
        rw [lookupKey_append_none lvl _ n h']
        simp [lookupKey, arrCanonical]
      rw [hexp]
      simp only [Option.getD_some, arrLit_get_items, arrItemsLit_get, hinner,
        Option.map, arrLit_set_chain]
      rw [setKey_append_self lvl n _ _ h']

/-- Replaying flat properties whose parsed head names are pairwise
    distinct and absent from the accumulator never raises. -/
theorem unflattenFold_distinct :
    ∀ (props : List (Str × Json)) (acc : List (Str × Json)),
    (∀ kv ∈ props, lookupKey acc (headNameOfPath kv.1) = none) →
    (props.map fun kv => headNameOfPath kv.1).Nodup →
    ∃ out, unflattenFold props acc = some out
  | [], acc, _, _ => ⟨acc, rfl⟩
  | (path, pd) :: rest, acc, hacc, hnd => by
      cases hp : _parse_flat_path path with
      | nil => exact absurd hp (parse_ne_nil path)
      | cons s parts =>
          have hhead : headNameOfPath path = segName s := by
            simp [headNameOfPath, hp]
          have hfirst : lookupKey acc (segName s) = none := by
            have := hacc (path, pd) (by simp)
            rwa [hhead] at this
          obtain ⟨acc', hgo, hkeys⟩ := unflattenGo_fresh s parts pd acc hfirst
          simp only [List.map_cons, List.nodup_cons] at hnd
          obtain ⟨hnotin, hnd'⟩ := hnd
          have hacc' : ∀ kv ∈ rest, lookupKey acc' (headNameOfPath kv.1) = none := by
            intro kv hkv
            rw [lookupKey_eq_none_iff, hkeys]
            simp only [List.mem_append, List.mem_singleton]
            rintro (hmem | heq)
            · have := hacc kv (by simp [hkv])
              rw [lookupKey_eq_none_iff] at this
              exact this hmem
            · rw [hhead] at hnotin
              exact hnotin (heq ▸ List.mem_map_of_mem _ hkv)
          obtain ⟨out, hout⟩ := unflattenFold_distinct rest acc' hacc' hnd'
          refine ⟨out, ?_⟩
          simp only [unflattenFold, _unflatten_property, hp, hgo, hout]

/-- Counterexample to C2 as stated: on the flat document whose
    properties carry the colliding paths `"a"` (a leaf) and then
    `"a.b"`, `unflatten_schema` raises (`KeyError` on descending through
    the leaf stored at `"a"`) instead of degrading. -/
theorem unflatten_prefix_collision_raises :
    unflatten_schema
      [(propertiesK, Json.obj
        [("a".data, Json.obj [(typeK, Json.str "string".data)]),
         ("a.b".data, Json.obj [(typeK, Json.str "string".data)])])]
      [("a".data, "a".data)] = none := by
  decide

/-- C2 (amended): the unflattener is total on flat documents whose
    flat property keys parse to pairwise-distinct head names, so that
    each path lands in a top-level property of its own; without that
    restriction totality fails — a flat path that collides with a
    previously placed leaf, one path a proper prefix of another, raises
    rather than degrades (`unflatten_prefix_collision_raises`). -/
theorem unflatten_total_distinct_heads (F : List (Str × Json))
    (m : List (Str × Str)) (hm : m ≠ []) (hok : propsMappingOk F = true)
    (hnd : ((propsListOf F).map fun kv => headNameOfPath kv.1).Nodup) :
    ∃ O, unflatten_schema F m = some O := by
  have hm' : m.isEmpty = false := by
    cases m with
    | nil => exact absurd rfl hm
    | cons a l => rfl
  unfold unflatten_schema
  rw [hm']
  simp only [Bool.false_eq_true, if_false]
  cases hF : lookupKey F propertiesK with
  | none => exact ⟨_, rfl⟩
  | some v =>
      cases v with
      | obj props =>
          have hprops : propsListOf F = props := by
            simp [propsListOf, hF]
          rw [hprops] at hnd
          obtain ⟨out, hout⟩ := unflattenFold_distinct props []
            (by intro kv _; rfl) hnd
          simp only [hout, Option.map]
          exact ⟨_, rfl⟩
      | null => simp [propsMappingOk, hF] at hok
      | bool b => simp [propsMappingOk, hF] at hok
      | num m2 => simp [propsMappingOk, hF] at hok
      | str s => simp [propsMappingOk, hF] at hok
      | arr l => simp [propsMappingOk, hF] at hok

/-- Witness for the amended C2 on a concrete flat document with two
    multi-segment paths under distinct heads. -/
theorem unflatten_total_distinct_heads_witness :
    ∃ O, unflatten_schema
      [(propertiesK, Json.obj
        [("a.x".data, Json.obj [(typeK, Json.str "string".data)]),
         ("b[*].y".data, Json.obj [(typeK, Json.str "string".data)])])]
      [("a.x".data, "a.x".data)] = some O :=
  unflatten_total_distinct_heads _ _ (by decide) (by decide) (by decide)

/-! ## Path rendering and parsing lemmas -/

theorem nameOk_parts (n : Str) (h : nameOk n = true) :
    n ≠ [] ∧ '.' ∉ n ∧ hasStar n = false := by
  simp only [nameOk, Bool.and_eq_true, Bool.not_eq_true'] at h
  obtain ⟨⟨h1, h2⟩, h3⟩ := h
  refine ⟨?_, ?_, h3⟩
  · cases n with
    | nil => exact Bool.noConfusion h1
    | cons c rest => simp
  · intro hmem
    rw [decide_eq_false_iff_not] at h2
    exact h2 hmem

theorem splitDot_no_dot (s : Str) (h : '.' ∉ s) : splitDot s = [s] := by
  induction s with
  | nil => rfl
  | cons c rest ih =>
      simp only [List.mem_cons, not_or] at h
      obtain ⟨hc, hrest⟩ := h
      simp only [splitDot, if_neg (Ne.symm hc), ih hrest]

theorem splitDot_append (a b : Str) (h : '.' ∉ a) :
    splitDot (a ++ '.' :: b) = a :: splitDot b := by
  induction a with
  | nil => simp [splitDot]
  | cons c rest ih =>
      simp only [List.mem_cons, not_or] at h
      obtain ⟨hc, hrest⟩ := h
      simp only [List.cons_append, splitDot, if_neg (Ne.symm hc), List.append_eq,
        ih hrest]

theorem hasStar_cons_false (c : Char) (s : Str) (h : hasStar (c :: s) = false) :
    hasStar s = false := by
  simp only [hasStar, Bool.or_eq_false_iff] at h
  exact h.2

theorem hasStar_append_star (n : Str) : hasStar (n ++ starSuffix) = true := by
  induction n with
  | nil => decide
  | cons c rest ih =>
      simp only [List.cons_append, hasStar, List.append_eq, ih, Bool.or_true]

theorem star_not_prefixed (c : Char) (n : Str) (h : hasStar (c :: n) = false) :
    "[*]".data.isPrefixOf (c :: (n ++ "[*]".data)) = false := by
  match n with
  | [] => simp +decide [List.isPrefixOf]
  | [d] => simp +decide [List.isPrefixOf]
  | d :: e :: rest =>
      simp only [hasStar, Bool.or_eq_false_iff] at h
      obtain ⟨h1, -⟩ := h
      simp only [List.isPrefixOf, List.cons_append, List.append_eq,
        Bool.and_true] at h1 ⊢
      exact h1

theorem replaceFuel_star : ∀ (n : Str), hasStar n = false →
    replaceFuel "[*]".data [] (n.length + 3) (n ++ "[*]".data) = n
  | [], _ => by decide
  | c :: n', h => by
      have hpre := star_not_prefixed c n' h
      have hcond : ¬("[*]".data ≠ [] ∧
          "[*]".data.isPrefixOf (c :: (n' ++ "[*]".data)) = true) := by
        rintro ⟨-, hp⟩
        rw [hpre] at hp
        exact Bool.noConfusion hp
      have hstep : (c :: n').length + 3 = (n'.length + 3) + 1 := by
        simp [List.length_cons]
      rw [hstep]
      show replaceFuel "[*]".data [] (n'.length + 3 + 1) (c :: (n' ++ "[*]".data)) = c :: n'
      rw [replaceFuel]
      rw [if_neg hcond]
      rw [replaceFuel_star n' (hasStar_cons_false c n' h)]

theorem stripStar_append_star (n : Str) (h : hasStar n = false) :
    stripStar (n ++ starSuffix) = n := by
  have hlen : (n ++ starSuffix).length = n.length + 3 := by
    simp [starSuffix]
  show replaceFuel "[*]".data [] (n ++ starSuffix).length (n ++ starSuffix) = n
  rw [hlen]
  exact replaceFuel_star n h

theorem renderSeg_no_dot (s : Seg) (h : nameOk (segName s) = true) :
    '.' ∉ renderSeg s := by
  obtain ⟨-, hdot, -⟩ := nameOk_parts _ h
  cases s with
  | seg_prop n => exact hdot
  | seg_arr n =>
      simp only [renderSeg]
      intro hmem
      rcases List.mem_append.mp hmem with hmem | hmem
      · exact hdot hmem
      · exact absurd hmem (by decide)

theorem classify_renderSeg (s : Seg) (h : nameOk (segName s) = true) :
    (if hasStar (renderSeg s) = true then Seg.seg_arr (stripStar (renderSeg s))
     else Seg.seg_prop (renderSeg s)) = s := by
  obtain ⟨-, -, hstar⟩ := nameOk_parts _ h
  cases s with
  | seg_prop n =>
      simp only [renderSeg, segName] at hstar ⊢
      rw [if_neg]
      simp [hstar]
  | seg_arr n =>
      simp only [renderSeg, segName] at hstar ⊢
      rw [if_pos (hasStar_append_star n), stripStar_append_star n hstar]

theorem parse_renderPath : ∀ (segs : List Seg), segs ≠ [] →
    (∀ s ∈ segs, nameOk (segName s) = true) →
    _parse_flat_path (renderPath segs) = segs
  | [], hne, _ => absurd rfl hne
  | [s], _, h => by
      have hs := h s (by simp)
      unfold _parse_flat_path
      rw [show renderPath [s] = renderSeg s from rfl]
      rw [splitDot_no_dot _ (renderSeg_no_dot s hs)]
      simp only [List.map_cons, List.map_nil]
      rw [classify_renderSeg s hs]
  | s :: t :: rest, _, h => by
      have hs := h s (by simp)
      have hrender : renderPath (s :: t :: rest) =
          renderSeg s ++ '.' :: renderPath (t :: rest) := rfl
      have ih := parse_renderPath (t :: rest) (by simp)
        (fun x hx => h x (List.mem_cons_of_mem s hx))
      unfold _parse_flat_path at ih ⊢
      rw [hrender, splitDot_append _ _ (renderSeg_no_dot s hs)]
      simp only [List.map_cons]
      rw [classify_renderSeg s hs, ih]

/-! ## Structural lemmas about the good-document grammar -/

theorem GProps.wf_leaf {n : Str} {kvs : List (Str × Json)} {r : GProps}
    (h : (GProps.leafCons n kvs r).wf = true) :
    nameOk n = true ∧ terminalLeaf (Json.obj kvs) = true ∧
    n ∉ r.names ∧ r.wf = true := by
  simp only [GProps.wf, Bool.and_eq_true, Bool.not_eq_true',
    decide_eq_false_iff_not] at h
  exact ⟨h.1.1.1, h.1.1.2, h.1.2, h.2⟩

theorem GProps.wf_obj {n : Str} {sub r : GProps}
    (h : (GProps.objCons n sub r).wf = true) :
    nameOk n = true ∧ sub ≠ GProps.nil ∧ sub.wf = true ∧
    n ∉ r.names ∧ r.wf = true := by
  simp only [GProps.wf, Bool.and_eq_true, Bool.not_eq_true',
    decide_eq_false_iff_not] at h
  exact ⟨h.1.1.1.1, h.1.1.1.2, h.1.1.2, h.1.2, h.2⟩

theorem GProps.wf_arr {n : Str} {sub r : GProps}
    (h : (GProps.arrCons n sub r).wf = true) :
    nameOk n = true ∧ sub ≠ GProps.nil ∧ sub.wf = true ∧
    n ∉ r.names ∧ r.wf = true := by
  simp only [GProps.wf, Bool.and_eq_true, Bool.not_eq_true',
    decide_eq_false_iff_not] at h
  exact ⟨h.1.1.1.1, h.1.1.1.2, h.1.1.2, h.1.2, h.2⟩

theorem GProps.toJson_fst : ∀ (P : GProps), P.toJson.map Prod.fst = P.names
  | .nil => rfl
  | .leafCons n kvs r => by
      simp [GProps.toJson, GProps.names, GProps.toJson_fst r]
  | .objCons n sub r => by
      simp [GProps.toJson, GProps.names, GProps.toJson_fst r]
  | .arrCons n sub r => by
      simp [GProps.toJson, GProps.names, GProps.toJson_fst r]

theorem GProps.flatSegs_elem_ne_nil : ∀ (P : GProps), ∀ pj ∈ P.flatSegs, pj.1 ≠ []
  | .nil, pj, hm => by simp [GProps.flatSegs] at hm
  | .leafCons n kvs r, pj, hm => by
      simp only [GProps.flatSegs, List.mem_cons] at hm
      rcases hm with rfl | hm
      · simp
      · exact GProps.flatSegs_elem_ne_nil r pj hm
  | .objCons n sub r, pj, hm => by
      simp only [GProps.flatSegs, List.mem_append, List.mem_map] at hm
      rcases hm with ⟨qj, _, rfl⟩ | hm
      · simp
      · exact GProps.flatSegs_elem_ne_nil r pj hm
  | .arrCons n sub r, pj, hm => by
      simp only [GProps.flatSegs, List.mem_append, List.mem_map] at hm
      rcases hm with ⟨qj, _, rfl⟩ | hm
      · simp
      · exact GProps.flatSegs_elem_ne_nil r pj hm

theorem GProps.flatSegs_names_ok : ∀ (P : GProps), P.wf = true →
    ∀ pj ∈ P.flatSegs, ∀ s ∈ pj.1, nameOk (segName s) = true
  | .nil, _, pj, hm => by simp [GProps.flatSegs] at hm
  | .leafCons n kvs r, hwf, pj, hm => by
      obtain ⟨hn, -, -, hr⟩ := GProps.wf_leaf hwf
      simp only [GProps.flatSegs, List.mem_cons] at hm
      rcases hm with rfl | hm
      · intro s hs
        simp only [List.mem_singleton] at hs
        subst hs
        exact hn
      · exact GProps.flatSegs_names_ok r hr pj hm
  | .objCons n sub r, hwf, pj, hm => by
      obtain ⟨hn, -, hsub, -, hr⟩ := GProps.wf_obj hwf
      simp only [GProps.flatSegs, List.mem_append, List.mem_map] at hm
      rcases hm with ⟨qj, hq, rfl⟩ | hm
      · intro s hs
        simp only [List.mem_cons] at hs
        rcases hs with rfl | hs
        · exact hn
        · exact GProps.flatSegs_names_ok sub hsub qj hq s hs
      · exact GProps.flatSegs_names_ok r hr pj hm
  | .arrCons n sub r, hwf, pj, hm => by
      obtain ⟨hn, -, hsub, -, hr⟩ := GProps.wf_arr hwf
      simp only [GProps.flatSegs, List.mem_append, List.mem_map] at hm
      rcases hm with ⟨qj, hq, rfl⟩ | hm
      · intro s hs
        simp only [List.mem_cons] at hs
        rcases hs with rfl | hs
        · exact hn
        · exact GProps.flatSegs_names_ok sub hsub qj hq s hs
      · exact GProps.flatSegs_names_ok r hr pj hm

theorem GProps.flatSegs_head : ∀ (P : GProps), ∀ pj ∈ P.flatSegs,
    ∃ s r2, pj.1 = s :: r2 ∧ segName s ∈ P.names
  | .nil, pj, hm => by simp [GProps.flatSegs] at hm
  | .leafCons n kvs r, pj, hm => by
      simp only [GProps.flatSegs, List.mem_cons] at hm
      rcases hm with rfl | hm
      · exact ⟨.seg_prop n, [], rfl, by simp [GProps.names, segName]⟩
      · obtain ⟨s, r2, he, hmem⟩ := GProps.flatSegs_head r pj hm
        exact ⟨s, r2, he, by simp [GProps.names, hmem]⟩
  | .objCons n sub r, pj, hm => by
      simp only [GProps.flatSegs, List.mem_append, List.mem_map] at hm
      rcases hm with ⟨qj, _, rfl⟩ | hm
      · exact ⟨.seg_prop n, qj.1, rfl, by simp [GProps.names, segName]⟩
      · obtain ⟨s, r2, he, hmem⟩ := GProps.flatSegs_head r pj hm
        exact ⟨s, r2, he, by simp [GProps.names, hmem]⟩
  | .arrCons n sub r, pj, hm => by
      simp only [GProps.flatSegs, List.mem_append, List.mem_map] at hm
      rcases hm with ⟨qj, _, rfl⟩ | hm
      · exact ⟨.seg_arr n, qj.1, rfl, by simp [GProps.names, segName]⟩
      · obtain ⟨s, r2, he, hmem⟩ := GProps.flatSegs_head r pj hm
        exact ⟨s, r2, he, by simp [GProps.names, hmem]⟩

theorem GProps.flatSegs_ne_nil : ∀ (P : GProps), P.wf = true →
    P ≠ GProps.nil → P.flatSegs ≠ []
  | .nil, _, hne => absurd rfl hne
  | .leafCons n kvs r, _, _ => by simp [GProps.flatSegs]
  | .objCons n sub r, hwf, _ => by
      obtain ⟨-, hsubne, hsub, -, -⟩ := GProps.wf_obj hwf
      have := GProps.flatSegs_ne_nil sub hsub hsubne
      simp [GProps.flatSegs, this]
  | .arrCons n sub r, hwf, _ => by
      obtain ⟨-, hsubne, hsub, -, -⟩ := GProps.wf_arr hwf
      have := GProps.flatSegs_ne_nil sub hsub hsubne
      simp [GProps.flatSegs, this]

theorem GProps.flatSegs_fst_nodup : ∀ (P : GProps), P.wf = true →
    (P.flatSegs.map Prod.fst).Nodup
  | .nil, _ => by simp [GProps.flatSegs]
  | .leafCons n kvs r, hwf => by
      obtain ⟨-, -, hnmem, hr⟩ := GProps.wf_leaf hwf
      simp only [GProps.flatSegs, List.map_cons, List.nodup_cons]
      constructor
      · intro hmem
        obtain ⟨pj, hpj, he⟩ := List.mem_map.mp hmem
        obtain ⟨s, r2, he2, hname⟩ := GProps.flatSegs_head r pj hpj
        rw [he2] at he
        injection he with h1 h2
        subst h1
        exact hnmem (by simpa [segName] using hname)
      · exact GProps.flatSegs_fst_nodup r hr
  | .objCons n sub r, hwf => by
      obtain ⟨-, -, hsub, hnmem, hr⟩ := GProps.wf_obj hwf
      simp only [GProps.flatSegs, List.map_append, List.map_map]
      rw [List.nodup_append]
      refine ⟨?_, GProps.flatSegs_fst_nodup r hr, ?_⟩
      · have hnd := List.Nodup.map (f := fun l : List Seg => Seg.seg_prop n :: l)
          (fun a b hab => by simpa using hab) (GProps.flatSegs_fst_nodup sub hsub)
        rw [List.map_map] at hnd
        exact hnd
      · intro x hx hx2
        obtain ⟨qj, hqj, rfl⟩ := List.mem_map.mp hx
        obtain ⟨pj, hpj, he⟩ := List.mem_map.mp hx2
        obtain ⟨s, r2, he2, hname⟩ := GProps.flatSegs_head r pj hpj
        rw [he2] at he
        injection he with h1 h2
        subst h1
        exact hnmem (by simpa [segName] using hname)
  | .arrCons n sub r, hwf => by
      obtain ⟨-, -, hsub, hnmem, hr⟩ := GProps.wf_arr hwf
      simp only [GProps.flatSegs, List.map_append, List.map_map]
      rw [List.nodup_append]
      refine ⟨?_, GProps.flatSegs_fst_nodup r hr, ?_⟩
      · have hnd := List.Nodup.map (f := fun l : List Seg => Seg.seg_arr n :: l)
          (fun a b hab => by simpa using hab) (GProps.flatSegs_fst_nodup sub hsub)
        rw [List.map_map] at hnd
        exact hnd
      · intro x hx hx2
        obtain ⟨qj, hqj, rfl⟩ := List.mem_map.mp hx
        obtain ⟨pj, hpj, he⟩ := List.mem_map.mp hx2
        obtain ⟨s, r2, he2, hname⟩ := GProps.flatSegs_head r pj hpj
        rw [he2] at he
        injection he with h1 h2
        subst h1
        exact hnmem (by simpa [segName] using hname)

theorem isEmpty_eq_false_of_ne_nil {α : Type} (l : List α) (h : l ≠ []) :
    l.isEmpty = false := by
  cases l with
  | nil => exact absurd rfl h
  | cons a t => rfl

theorem joinPath_ne_nil (pre n : Str) (hn : n ≠ []) : joinPath pre n ≠ [] := by
  unfold joinPath
  by_cases hp : pre.isEmpty
  · rw [if_pos hp]
    exact hn
  · rw [if_neg hp]
    simp

theorem joinRender_cons_prop (pre n : Str) (s : List Seg) (hn : n ≠ [])
    (hs : s ≠ []) :
    joinRender (joinPath pre n) s = joinRender pre (Seg.seg_prop n :: s) := by
  obtain ⟨t, rest, rfl⟩ : ∃ t rest, s = t :: rest := by
    cases s with
    | nil => exact absurd rfl hs
    | cons t rest => exact ⟨t, rest, rfl⟩
  have hrp : renderPath (Seg.seg_prop n :: t :: rest) =
      n ++ '.' :: renderPath (t :: rest) := rfl
  by_cases hp : pre.isEmpty = true
  · have hpre : joinPath pre n = n := by
      simp [joinPath, hp]
    unfold joinRender
    rw [hpre, isEmpty_eq_false_of_ne_nil n hn, if_pos hp, hrp]
    simp
  · have hpfalse : pre.isEmpty = false := by
      cases h2 : pre.isEmpty
      · rfl
      · exact absurd h2 hp
    have hpre : joinPath pre n = pre ++ '.' :: n := by
      simp [joinPath, hpfalse]
    unfold joinRender
    rw [hpre, isEmpty_eq_false_of_ne_nil (pre ++ '.' :: n) (by simp), hpfalse, hrp]
    simp [List.append_assoc]

theorem joinRender_cons_arr (pre n : Str) (s : List Seg) (hn : n ≠ [])
    (hs : s ≠ []) :
    joinRender (joinPath pre n ++ starSuffix) s =
      joinRender pre (Seg.seg_arr n :: s) := by
  obtain ⟨t, rest, rfl⟩ : ∃ t rest, s = t :: rest := by
    cases s with
    | nil => exact absurd rfl hs
    | cons t rest => exact ⟨t, rest, rfl⟩
  have hrp : renderPath (Seg.seg_arr n :: t :: rest) =
      (n ++ starSuffix) ++ '.' :: renderPath (t :: rest) := rfl
  have hne : (joinPath pre n ++ starSuffix).isEmpty = false := by
    apply isEmpty_eq_false_of_ne_nil
    simp [starSuffix]
  by_cases hp : pre.isEmpty = true
  · have hpre : joinPath pre n = n := by
      simp [joinPath, hp]
    unfold joinRender
    rw [hne, hpre, if_pos hp, hrp]
    simp [List.append_assoc]
  · have hpfalse : pre.isEmpty = false := by
      cases h2 : pre.isEmpty
      · rfl
      · exact absurd h2 hp
    have hpre : joinPath pre n = pre ++ '.' :: n := by
      simp [joinPath, hpfalse]
    unfold joinRender
    rw [hne, hpre, hpfalse, hrp]
    simp [List.append_assoc]

theorem GProps.flatList_render : ∀ (P : GProps) (pre : Str), P.wf = true →
    P.flatList pre = P.flatSegs.map fun pj => (joinRender pre pj.1, pj.2)
  | .nil, pre, _ => rfl
  | .leafCons n kvs r, pre, hwf => by
      obtain ⟨hn, -, -, hr⟩ := GProps.wf_leaf hwf
      simp only [GProps.flatList, GProps.flatSegs, List.map_cons]
      rw [GProps.flatList_render r pre hr]
      rfl
  | .objCons n sub r, pre, hwf => by
      obtain ⟨hn, -, hsub, -, hr⟩ := GProps.wf_obj hwf
      obtain ⟨hn1, -, -⟩ := nameOk_parts n hn
      simp only [GProps.flatList, GProps.flatSegs, List.map_append, List.map_map]
      rw [GProps.flatList_render sub _ hsub, GProps.flatList_render r pre hr]
      congr 1
      apply List.map_congr_left
      intro qj hqj
      have hqne := GProps.flatSegs_elem_ne_nil sub qj hqj
      simp only [Function.comp]
      rw [joinRender_cons_prop pre n qj.1 hn1 hqne]
  | .arrCons n sub r, pre, hwf => by
      obtain ⟨hn, -, hsub, -, hr⟩ := GProps.wf_arr hwf
      obtain ⟨hn1, -, -⟩ := nameOk_parts n hn
      simp only [GProps.flatList, GProps.flatSegs, List.map_append, List.map_map]
      rw [GProps.flatList_render sub _ hsub, GProps.flatList_render r pre hr]
      congr 1
      apply List.map_congr_left
      intro qj hqj
      have hqne := GProps.flatSegs_elem_ne_nil sub qj hqj
      simp only [Function.comp]
      rw [joinRender_cons_arr pre n qj.1 hn1 hqne]

theorem joinRender_inj (pre : Str) (x y : List Seg)
    (hxne : x ≠ []) (hxok : ∀ s ∈ x, nameOk (segName s) = true)
    (hyne : y ≠ []) (hyok : ∀ s ∈ y, nameOk (segName s) = true)
    (h : joinRender pre x = joinRender pre y) : x = y := by
  have hrxy : renderPath x = renderPath y := by
    unfold joinRender at h
    by_cases hp : pre.isEmpty = true
    · rwa [if_pos hp, if_pos hp] at h
    · rw [if_neg hp, if_neg hp] at h
      have h2 := List.append_cancel_left h
      injection h2
  calc x = _parse_flat_path (renderPath x) := (parse_renderPath x hxne hxok).symm
    _ = _parse_flat_path (renderPath y) := by rw [hrxy]
    _ = y := parse_renderPath y hyne hyok

theorem GProps.flatKeys_nodup (P : GProps) (pre : Str) (hwf : P.wf = true) :
    ((P.flatList pre).map Prod.fst).Nodup := by
  rw [GProps.flatList_render P pre hwf, List.map_map]
  have heq : (Prod.fst ∘ fun pj : List Seg × Json => (joinRender pre pj.1, pj.2)) =
      (fun l : List Seg => joinRender pre l) ∘ Prod.fst := rfl
  rw [heq, ← List.map_map]
  apply List.Nodup.map_on
  · intro x hx y hy hxy
    obtain ⟨pjx, hpjx, rfl⟩ := List.mem_map.mp hx
    obtain ⟨pjy, hpjy, rfl⟩ := List.mem_map.mp hy
    exact joinRender_inj pre _ _ (GProps.flatSegs_elem_ne_nil P pjx hpjx)
      (GProps.flatSegs_names_ok P hwf pjx hpjx)
      (GProps.flatSegs_elem_ne_nil P pjy hpjy)
      (GProps.flatSegs_names_ok P hwf pjy hpjy) hxy
  · exact GProps.flatSegs_fst_nodup P hwf

theorem GProps.flatList_ne_nil (P : GProps) (pre : Str) (hwf : P.wf = true)
    (hne : P ≠ GProps.nil) : P.flatList pre ≠ [] := by
  rw [GProps.flatList_render P pre hwf]
  have := GProps.flatSegs_ne_nil P hwf hne
  simp [this]

theorem lookupKey_singleton_ne {α : Type} (k q : Str) (v : α) (h : k ≠ q) :
    lookupKey [(k, v)] q = none := by
  simp [lookupKey, h]

/-- The flattener walks a well-formed `GProps` exactly as specified:
    it appends the traversal's flat leaves to the accumulator and pairs
    every produced path with itself in the index. -/
theorem flatten_good (defs : List (Str × Json)) :
    ∀ (P : GProps) (fuel : Nat) (pre : Str) (flat : List (Str × Json))
      (pmap : List (Str × Str)),
    P.wf = true → P.fuelNeed ≤ fuel →
    (∀ q ∈ (P.flatList pre).map Prod.fst,
      lookupKey flat q = none ∧ lookupKey pmap q = none) →
    ((P.flatList pre).map Prod.fst).Nodup →
    _flatten_properties defs fuel P.toJson pre flat pmap =
      some (flat ++ P.flatList pre, pmap ++ (P.flatList pre).map fun q => (q.1, q.1))
  | .nil, fuel, pre, flat, pmap, _, hfuel, _, _ => by
      obtain ⟨g, rfl⟩ : ∃ g, fuel = g + 1 := by
        cases fuel with
        | zero => simp [GProps.fuelNeed] at hfuel
        | succ g => exact ⟨g, rfl⟩
      simp [GProps.toJson, GProps.flatList, flatten_nil_step]
  | .leafCons n kvs r, fuel, pre, flat, pmap, hwf, hfuel, hfresh, hnd => by
      obtain ⟨hn, hterm, hnmem, hr⟩ := GProps.wf_leaf hwf
      obtain ⟨g, rfl⟩ : ∃ g, fuel = g + 1 := by
        cases fuel with
        | zero => simp [GProps.fuelNeed] at hfuel
        | succ g => exact ⟨g, rfl⟩
      have hg : r.fuelNeed ≤ g := by
        simp only [GProps.fuelNeed] at hfuel
        omega
      simp only [GProps.toJson]
      rw [flatten_leaf_step defs g n kvs r.toJson pre flat pmap hterm]
      simp only [GProps.flatList, List.map_cons] at hfresh hnd ⊢
      obtain ⟨hfl, hpm⟩ := hfresh _ (List.mem_cons_self _ _)
      rw [setKey_of_lookup_none flat _ _ hfl, setKey_of_lookup_none pmap _ _ hpm]
      rw [List.nodup_cons] at hnd
      obtain ⟨hhead, hnd'⟩ := hnd
      rw [flatten_good defs r g pre _ _ hr hg ?fresh ?nodup]
      case fresh =>
        intro q hq
        have hne : q ≠ joinPath pre n := by
          intro heq
          exact hhead (heq ▸ hq)
        obtain ⟨h1, h2⟩ := hfresh q (List.mem_cons_of_mem _ hq)
        constructor
        · rw [lookupKey_append_none flat _ q h1]
          exact lookupKey_singleton_ne _ q _ (Ne.symm hne)
        · rw [lookupKey_append_none pmap _ q h2]
          exact lookupKey_singleton_ne _ q _ (Ne.symm hne)
      case nodup => exact hnd'
      simp [List.append_assoc]
  | .objCons n sub r, fuel, pre, flat, pmap, hwf, hfuel, hfresh, hnd => by
      obtain ⟨hn, hsubne, hsub, hnmem, hr⟩ := GProps.wf_obj hwf
      obtain ⟨g, rfl⟩ : ∃ g, fuel = g + 1 := by
        cases fuel with
        | zero => simp [GProps.fuelNeed] at hfuel
        | succ g => exact ⟨g, rfl⟩
      have hgsub : sub.fuelNeed ≤ g := by
        simp only [GProps.fuelNeed] at hfuel
        omega
      have hgr : r.fuelNeed ≤ g := by
        simp only [GProps.fuelNeed] at hfuel
        omega
      simp only [GProps.toJson]
      rw [flatten_obj_step defs g n sub.toJson r.toJson pre flat pmap]
      simp only [GProps.flatList, List.map_append] at hfresh hnd ⊢
      rw [List.nodup_append] at hnd
      obtain ⟨hndsub, hndr, hdisj⟩ := hnd
      rw [flatten_good defs sub g (joinPath pre n) flat pmap hsub hgsub
        (fun q hq => hfresh q (List.mem_append_left _ hq)) hndsub]
      rw [Option.some_bind]
      rw [flatten_good defs r g pre _ _ hr hgr ?fresh2 hndr]
      case fresh2 =>
        intro q hq
        obtain ⟨h1, h2⟩ := hfresh q (List.mem_append_right _ hq)
        have hq2 : q ∉ (sub.flatList (joinPath pre n)).map Prod.fst := by
          intro hmem
          exact hdisj hmem hq
        constructor
        · rw [lookupKey_append_none flat _ q h1]
          exact (lookupKey_eq_none_iff _ q).mpr hq2
        · rw [lookupKey_append_none pmap _ q h2]
          rw [lookupKey_eq_none_iff]
          intro hmem
          rw [List.map_map] at hmem
          obtain ⟨qq, hqq, hqe⟩ := List.mem_map.mp hmem
          exact hq2 (hqe ▸ List.mem_map_of_mem Prod.fst hqq)
      simp [List.append_assoc]
  | .arrCons n sub r, fuel, pre, flat, pmap, hwf, hfuel, hfresh, hnd => by
      obtain ⟨hn, hsubne, hsub, hnmem, hr⟩ := GProps.wf_arr hwf
      obtain ⟨g, rfl⟩ : ∃ g, fuel = g + 1 := by
        cases fuel with
        | zero => simp [GProps.fuelNeed] at hfuel
        | succ g => exact ⟨g, rfl⟩
      have hgsub : sub.fuelNeed ≤ g := by
        simp only [GProps.fuelNeed] at hfuel
        omega
      have hgr : r.fuelNeed ≤ g := by
        simp only [GProps.fuelNeed] at hfuel
        omega
      simp only [GProps.toJson]
      rw [flatten_arr_step defs g n sub.toJson r.toJson pre flat pmap]
      simp only [GProps.flatList, List.map_append] at hfresh hnd ⊢
      rw [List.nodup_append] at hnd
      obtain ⟨hndsub, hndr, hdisj⟩ := hnd
      rw [flatten_good defs sub g (joinPath pre n ++ starSuffix) flat pmap hsub hgsub
        (fun q hq => hfresh q (List.mem_append_left _ hq)) hndsub]
      rw [Option.some_bind]
      rw [flatten_good defs r g pre _ _ hr hgr ?fresh3 hndr]
      case fresh3 =>
        intro q hq
        obtain ⟨h1, h2⟩ := hfresh q (List.mem_append_right _ hq)
        have hq2 : q ∉ (sub.flatList (joinPath pre n ++ starSuffix)).map Prod.fst := by
          intro hmem
          exact hdisj hmem hq
        constructor
        · rw [lookupKey_append_none flat _ q h1]
          exact (lookupKey_eq_none_iff _ q).mpr hq2
        · rw [lookupKey_append_none pmap _ q h2]
          rw [lookupKey_eq_none_iff]
          intro hmem
          rw [List.map_map] at hmem
          obtain ⟨qq, hqq, hqe⟩ := List.mem_map.mp hmem
          exact hq2 (hqe ▸ List.mem_map_of_mem Prod.fst hqq)
      simp [List.append_assoc]

/-! ## Reconstruction lemmas -/

theorem objNodeOf_get (P0 : List (Str × Json)) :
    (objNodeOf P0).get propertiesK = some (Json.obj P0) := by
  simp +decide [objNodeOf, Json.get, lookupKey]

theorem objNodeOf_set (P0 X : List (Str × Json)) :
    (objNodeOf P0).set propertiesK (Json.obj X) = objNodeOf X := by
  simp +decide [objNodeOf, Json.set, setKey]

theorem arrNodeOf_get_items (P0 : List (Str × Json)) :
    (arrNodeOf P0).get itemsK =
      some (Json.obj [(typeK, Json.str objectV), (propertiesK, Json.obj P0)]) := by
  simp +decide [arrNodeOf, Json.get, lookupKey]

theorem arrItemsOf_get (P0 : List (Str × Json)) :
    (Json.obj [(typeK, Json.str objectV), (propertiesK, Json.obj P0)]).get
      propertiesK = some (Json.obj P0) := by
  simp +decide [Json.get, lookupKey]

theorem arrNodeOf_set (P0 X : List (Str × Json)) :
    (arrNodeOf P0).set itemsK
      ((Json.obj [(typeK, Json.str objectV), (propertiesK, Json.obj P0)]).set
        propertiesK (Json.obj X)) = arrNodeOf X := by
  simp +decide [arrNodeOf, Json.set, setKey]

theorem unflattenGo_into_obj (n : Str) (p : Seg) (ps : List Seg) (pd : Json)
    (A P0 : List (Str × Json)) (h : lookupKey A n = none) :
    unflattenGo (.seg_prop n :: p :: ps) pd (A ++ [(n, objNodeOf P0)]) =
      (unflattenGo (p :: ps) pd P0).map fun P1 => A ++ [(n, objNodeOf P1)] := by
  have hlk : lookupKey (A ++ [(n, objNodeOf P0)]) n = some (objNodeOf P0) := by
    rw [lookupKey_append_none A _ n h]
    simp [lookupKey]
  simp only [unflattenGo, hlk, Option.getD_some, objNodeOf_get]
  cases unflattenGo (p :: ps) pd P0 with
  | none => rfl
  | some P1 =>
      simp only [Option.map]
      rw [objNodeOf_set, setKey_append_self A n _ _ h]

theorem unflattenGo_into_arr (n : Str) (p : Seg) (ps : List Seg) (pd : Json)
    (A P0 : List (Str × Json)) (h : lookupKey A n = none) :
    unflattenGo (.seg_arr n :: p :: ps) pd (A ++ [(n, arrNodeOf P0)]) =
      (unflattenGo (p :: ps) pd P0).map fun P1 => A ++ [(n, arrNodeOf P1)] := by
  have hlk : lookupKey (A ++ [(n, arrNodeOf P0)]) n = some (arrNodeOf P0) := by
    rw [lookupKey_append_none A _ n h]
    simp [lookupKey]
  have hhk : hasKey (A ++ [(n, arrNodeOf P0)]) n = true := by
    simp [hasKey, hlk]
  simp only [unflattenGo, hhk, if_true, hlk, Option.getD_some,
    arrNodeOf_get_items, arrItemsOf_get]
  cases unflattenGo (p :: ps) pd P0 with
  | none => rfl
  | some P1 =>
      simp only [Option.map]
      rw [arrNodeOf_set, setKey_append_self A n _ _ h]

theorem foldSegs_into_obj : ∀ (L : List (List Seg × Json))
    (A P0 : List (Str × Json)) (n : Str),
    (∀ pj ∈ L, pj.1 ≠ []) → lookupKey A n = none →
    foldSegs (L.map fun pj => (Seg.seg_prop n :: pj.1, pj.2)) (A ++ [(n, objNodeOf P0)]) =
      (foldSegs L P0).map fun X => A ++ [(n, objNodeOf X)]
  | [], A, P0, n, _, _ => rfl
  | (s, j) :: L', A, P0, n, hne, h => by
      obtain ⟨p, ps, rfl⟩ : ∃ p ps, s = p :: ps := by
        cases s with
        | nil => exact absurd rfl (hne (([] : List Seg), j) (by simp))
        | cons p ps => exact ⟨p, ps, rfl⟩
      simp only [List.map_cons, foldSegs]
      rw [unflattenGo_into_obj n p ps j A P0 h]
      cases hres : unflattenGo (p :: ps) j P0 with
      | none => simp [foldSegs, hres]
      | some P1 =>
          simp only [Option.map]
          rw [foldSegs_into_obj L' A P1 n
            (fun pj hpj => hne pj (List.mem_cons_of_mem _ hpj)) h]
          cases foldSegs L' P1 <;> rfl

theorem foldSegs_into_arr : ∀ (L : List (List Seg × Json))
    (A P0 : List (Str × Json)) (n : Str),
    (∀ pj ∈ L, pj.1 ≠ []) → lookupKey A n = none →
    foldSegs (L.map fun pj => (Seg.seg_arr n :: pj.1, pj.2)) (A ++ [(n, arrNodeOf P0)]) =
      (foldSegs L P0).map fun X => A ++ [(n, arrNodeOf X)]
  | [], A, P0, n, _, _ => rfl
  | (s, j) :: L', A, P0, n, hne, h => by
      obtain ⟨p, ps, rfl⟩ : ∃ p ps, s = p :: ps := by
        cases s with
        | nil => exact absurd rfl (hne (([] : List Seg), j) (by simp))
        | cons p ps => exact ⟨p, ps, rfl⟩
      simp only [List.map_cons, foldSegs]
      rw [unflattenGo_into_arr n p ps j A P0 h]
      cases hres : unflattenGo (p :: ps) j P0 with
      | none => simp [foldSegs, hres]
      | some P1 =>
          simp only [Option.map]
          rw [foldSegs_into_arr L' A P1 n
            (fun pj hpj => hne pj (List.mem_cons_of_mem _ hpj)) h]
          cases foldSegs L' P1 <;> rfl

theorem foldSegs_block_obj (L : List (List Seg × Json)) (A : List (Str × Json))
    (n : Str) (hL : L ≠ []) (hne : ∀ pj ∈ L, pj.1 ≠ [])
    (h : lookupKey A n = none) :
    foldSegs (L.map fun pj => (Seg.seg_prop n :: pj.1, pj.2)) A =
      (foldSegs L []).map fun X => A ++ [(n, objNodeOf X)] := by
  cases L with
  | nil => exact absurd rfl hL
  | cons sj L' =>
      obtain ⟨s, j⟩ := sj
      obtain ⟨p, ps, rfl⟩ : ∃ p ps, s = p :: ps := by
        cases s with
        | nil => exact absurd rfl (hne (([] : List Seg), j) (by simp))
        | cons p ps => exact ⟨p, ps, rfl⟩
      simp only [List.map_cons, foldSegs, unflattenGo, h, Option.getD_none,
        objCanonical_get]
      cases hres : unflattenGo (p :: ps) j [] with
      | none => simp [foldSegs, hres]
      | some Y1 =>
          simp only [Option.map]
          rw [setKey_of_lookup_none A n _ h, objCanonical_set]
          rw [foldSegs_into_obj L' A Y1 n
            (fun pj hpj => hne pj (List.mem_cons_of_mem _ hpj)) h]
          cases foldSegs L' Y1 <;> rfl

theorem foldSegs_block_arr (L : List (List Seg × Json)) (A : List (Str × Json))
    (n : Str) (hL : L ≠ []) (hne : ∀ pj ∈ L, pj.1 ≠ [])
    (h : lookupKey A n = none) :
    foldSegs (L.map fun pj => (Seg.seg_arr n :: pj.1, pj.2)) A =
      (foldSegs L []).map fun X => A ++ [(n, arrNodeOf X)] := by
  cases L with
  | nil => exact absurd rfl hL
  | cons sj L' =>
      obtain ⟨s, j⟩ := sj
      obtain ⟨p, ps, rfl⟩ : ∃ p ps, s = p :: ps := by
        cases s with
        | nil => exact absurd rfl (hne (([] : List Seg), j) (by simp))
        | cons p ps => exact ⟨p, ps, rfl⟩
      have hhk : hasKey A n = false := by
        simp [hasKey, h]
      simp only [List.map_cons, foldSegs, unflattenGo, hhk, Bool.false_eq_true,
        if_false]
      rw [setKey_of_lookup_none A n _ h]
      have hexp : lookupKey (A ++ [(n, arrCanonical)]) n =
          some (Json.obj [(typeK, Json.str arrayV),
            (itemsK, Json.obj [(typeK, Json.str objectV), (propertiesK, Json.obj [])])]) := by
        rw [lookupKey_append_none A _ n h]
        simp [lookupKey, arrCanonical]
      simp only [hexp, Option.getD_some, arrLit_get_items, arrItemsLit_get]
      cases hres : unflattenGo (p :: ps) j [] with
      | none => simp [foldSegs, hres]
      | some Y1 =>
          simp only [Option.map]
          rw [setKey_append_self A n _ _ h, arrLit_set_chain]
          rw [foldSegs_into_arr L' A Y1 n
            (fun pj hpj => hne pj (List.mem_cons_of_mem _ hpj)) h]
          cases foldSegs L' Y1 <;> rfl

theorem foldSegs_append : ∀ (L1 L2 : List (List Seg × Json))
    (acc : List (Str × Json)),
    foldSegs (L1 ++ L2) acc = (foldSegs L1 acc).bind fun acc2 => foldSegs L2 acc2
  | [], L2, acc => rfl
  | (s, j) :: L1', L2, acc => by
      simp only [List.cons_append, foldSegs]
      cases unflattenGo s j acc with
      | none => rfl
      | some acc2 => exact foldSegs_append L1' L2 acc2

/-- Replaying the flattened segment paths of a well-formed `GProps`
    from any accumulator whose keys avoid its names rebuilds exactly its
    nested form, appended at the end. -/
theorem foldSegs_good : ∀ (P : GProps) (A : List (Str × Json)),
    P.wf = true → (∀ n ∈ P.names, lookupKey A n = none) →
    foldSegs P.flatSegs A = some (A ++ P.toJson)
  | .nil, A, _, _ => by
      simp [GProps.flatSegs, foldSegs, GProps.toJson]
  | .leafCons n kvs r, A, hwf, hA => by
      obtain ⟨hn, -, hnmem, hr⟩ := GProps.wf_leaf hwf
      have hAn : lookupKey A n = none := hA n (by simp [GProps.names])
      simp only [GProps.flatSegs, foldSegs, unflattenGo]
      rw [setKey_of_lookup_none A n _ hAn]
      rw [foldSegs_good r (A ++ [(n, Json.obj kvs)]) hr ?hfr]
      case hfr =>
        intro m hm
        have hmn : m ≠ n := fun he => hnmem (he ▸ hm)
        rw [lookupKey_append_none A _ m (hA m (by simp [GProps.names, hm]))]
        exact lookupKey_singleton_ne n m _ (Ne.symm hmn)
      simp [GProps.toJson, List.append_assoc]
  | .objCons n sub r, A, hwf, hA => by
      obtain ⟨hn, hsubne, hsub, hnmem, hr⟩ := GProps.wf_obj hwf
      have hAn : lookupKey A n = none := hA n (by simp [GProps.names])
      simp only [GProps.flatSegs]
      rw [foldSegs_append]
      rw [foldSegs_block_obj sub.flatSegs A n
        (GProps.flatSegs_ne_nil sub hsub hsubne)
        (GProps.flatSegs_elem_ne_nil sub) hAn]
      rw [foldSegs_good sub [] hsub (fun m _ => rfl)]
      simp only [List.nil_append, Option.map, Option.some_bind]
      rw [foldSegs_good r (A ++ [(n, objNodeOf sub.toJson)]) hr ?hfr2]
      case hfr2 =>
        intro m hm
        have hmn : m ≠ n := fun he => hnmem (he ▸ hm)
        rw [lookupKey_append_none A _ m (hA m (by simp [GProps.names, hm]))]
        exact lookupKey_singleton_ne n m _ (Ne.symm hmn)
      simp [GProps.toJson, objNodeOf, List.append_assoc]
  | .arrCons n sub r, A, hwf, hA => by
      obtain ⟨hn, hsubne, hsub, hnmem, hr⟩ := GProps.wf_arr hwf
      have hAn : lookupKey A n = none := hA n (by simp [GProps.names])
      simp only [GProps.flatSegs]
      rw [foldSegs_append]
      rw [foldSegs_block_arr sub.flatSegs A n
        (GProps.flatSegs_ne_nil sub hsub hsubne)
        (GProps.flatSegs_elem_ne_nil sub) hAn]
      rw [foldSegs_good sub [] hsub (fun m _ => rfl)]
      simp only [List.nil_append, Option.map, Option.some_bind]
      rw [foldSegs_good r (A ++ [(n, arrNodeOf sub.toJson)]) hr ?hfr3]
      case hfr3 =>
        intro m hm
        have hmn : m ≠ n := fun he => hnmem (he ▸ hm)
        rw [lookupKey_append_none A _ m (hA m (by simp [GProps.names, hm]))]
        exact lookupKey_singleton_ne n m _ (Ne.symm hmn)
      simp [GProps.toJson, arrNodeOf, List.append_assoc]

theorem unflattenFold_render : ∀ (L : List (List Seg × Json))
    (acc : List (Str × Json)),
    (∀ pj ∈ L, pj.1 ≠ [] ∧ ∀ s ∈ pj.1, nameOk (segName s) = true) →
    unflattenFold (L.map fun pj => (renderPath pj.1, pj.2)) acc = foldSegs L acc
  | [], acc, _ => rfl
  | (s, j) :: L', acc, h => by
      obtain ⟨hne, hok⟩ := h (s, j) (by simp)
      simp only [List.map_cons, unflattenFold, foldSegs, _unflatten_property]
      rw [parse_renderPath s hne hok]
      cases unflattenGo s j acc with
      | none => rfl
      | some acc2 =>
          exact unflattenFold_render L' acc2
            (fun pj hpj => h pj (List.mem_cons_of_mem _ hpj))

theorem joinRender_nil (s : List Seg) : joinRender [] s = renderPath s := rfl

theorem filter_setKey (l : List (Str × Json)) (k : Str) (v : Json) :
    (setKey l k v).filter (fun kv => !(kv.1 = k : Bool)) =
      l.filter (fun kv => !(kv.1 = k : Bool)) := by
  induction l with
  | nil => simp [setKey]
  | cons kv0 rest ih =>
      obtain ⟨k0, v0⟩ := kv0
      by_cases h0 : k0 = k
      · subst h0
        simp [setKey]
      · simp [setKey, h0, List.filter_cons, ih]

theorem filter_eq_self_of_lookup_none (l : List (Str × Json)) (k : Str)
    (h : lookupKey l k = none) :
    l.filter (fun kv => !(kv.1 = k : Bool)) = l := by
  induction l with
  | nil => rfl
  | cons kv0 rest ih =>
      obtain ⟨k0, v0⟩ := kv0
      by_cases h0 : k0 = k
      · simp [lookupKey, h0] at h
      · simp [lookupKey, h0] at h
        simp [List.filter_cons, h0, ih h]

theorem filter_append_perm (D : List (Str × Json)) (k : Str) (v : Json)
    (hnd : (D.map Prod.fst).Nodup) (hlk : lookupKey D k = some v) :
    (D.filter (fun kv => !(kv.1 = k : Bool)) ++ [(k, v)]).Perm D := by
  induction D with
  | nil => simp [lookupKey] at hlk
  | cons kv0 rest ih =>
      obtain ⟨k0, v0⟩ := kv0
      simp only [List.map_cons, List.nodup_cons] at hnd
      obtain ⟨hknotin, hnd'⟩ := hnd
      by_cases h0 : k0 = k
      · subst h0
        simp only [lookupKey, if_pos rfl, Option.some.injEq] at hlk
        rw [if_pos trivial] at hlk
        injection hlk with hlk
        subst hlk
        have hrest : lookupKey rest k0 = none := by
          rw [lookupKey_eq_none_iff]
          exact hknotin
        have hfil : List.filter (fun kv => !(kv.1 = k0 : Bool)) ((k0, v0) :: rest)
            = List.filter (fun kv => !(kv.1 = k0 : Bool)) rest := by
          simp [List.filter_cons]
        rw [hfil, filter_eq_self_of_lookup_none rest k0 hrest]
        exact List.perm_append_singleton _ _
      · simp only [lookupKey, if_neg h0] at hlk
        have hfil : List.filter (fun kv => !(kv.1 = k : Bool)) ((k0, v0) :: rest)
            = (k0, v0) :: List.filter (fun kv => !(kv.1 = k : Bool)) rest := by
          simp [List.filter_cons, h0]
        rw [hfil]
        exact List.Perm.cons _ (ih hnd' hlk)

/-- `flatten_schema` on a nested good document: the flat properties are
    the traversal's leaves, substituted in place, and the index pairs
    each path with itself. -/
theorem flatten_schema_good (D : List (Str × Json)) (P : GProps) (fuel : Nat)
    (hP : lookupKey D propertiesK = some (Json.obj P.toJson))
    (hwf : P.wf = true) (hfuel : P.fuelNeed ≤ fuel)
    (hn : is_nested_schema D = true) :
    flatten_schema fuel D =
      some (setKey D propertiesK (Json.obj (P.flatList [])),
            (P.flatList []).map fun q => (q.1, q.1)) := by
  unfold flatten_schema
  rw [hn]
  simp only [if_true, hP]
  rw [flatten_good _ P fuel [] [] [] hwf hfuel
    (fun q _ => ⟨rfl, rfl⟩) (GProps.flatKeys_nodup P [] hwf)]
  simp

theorem gprops_ne_nil_of_nested (D : List (Str × Json)) (P : GProps)
    (hP : lookupKey D propertiesK = some (Json.obj P.toJson))
    (hn : is_nested_schema D = true) : P ≠ GProps.nil := by
  intro he
  subst he
  unfold is_nested_schema at hn
  rw [hP] at hn
  simp [GProps.toJson, _has_nested_properties] at hn

/-- C1 (amended): over documents whose nested `properties` tree lies in
    the grammar `GProps` (terminal leaf dicts, objects with a non-empty
    `properties` sub-mapping, arrays of such objects — no `$ref`), with
    duplicate-free top-level keys and enough fuel, the round trip
    `unflatten_schema ∘ flatten_schema` succeeds and returns the
    document up to permutation of its top-level entries: the nested
    `properties` tree and every metadata entry come back identical, but
    the unflattener rebuilds `properties` as the last key of the dict
    (Python dict equality ignores that order).  The claim's literal
    document class, which also admits resolvable `$ref` properties, does
    not satisfy the law: see `roundtrip_ref_not_identity`. -/
theorem roundtrip_perm (D : List (Str × Json)) (P : GProps) (fuel : Nat)
    (hnd : (D.map Prod.fst).Nodup)
    (hP : lookupKey D propertiesK = some (Json.obj P.toJson))
    (hwf : P.wf = true) (hfuel : P.fuelNeed ≤ fuel) :
    ∃ O, roundTrip fuel D = some O ∧ O.Perm D := by
  by_cases hn : is_nested_schema D = true
  · have hPne : P ≠ GProps.nil := gprops_ne_nil_of_nested D P hP hn
    refine ⟨D.filter (fun kv => !(kv.1 = propertiesK : Bool)) ++
      [(propertiesK, Json.obj P.toJson)], ?_,
      filter_append_perm D propertiesK _ hnd hP⟩
    unfold roundTrip
    rw [flatten_schema_good D P fuel hP hwf hfuel hn, Option.some_bind]
    have hmne : ((P.flatList []).map fun q => (q.1, q.1)) ≠ [] := by
      have h1 := GProps.flatList_ne_nil P [] hwf hPne
      simp [h1]
    have hie : (((P.flatList []).map fun q => (q.1, q.1)).isEmpty) = false :=
      isEmpty_eq_false_of_ne_nil _ hmne
    have hbridge : unflattenFold (P.flatList []) [] = some ([] ++ P.toJson) := by
      rw [GProps.flatList_render P [] hwf]
      have hmap : (P.flatSegs.map fun pj => (joinRender [] pj.1, pj.2))
          = P.flatSegs.map fun pj => (renderPath pj.1, pj.2) :=
        List.map_congr_left fun pj _ => by rw [joinRender_nil]
      rw [hmap, unflattenFold_render P.flatSegs []
        (fun pj hpj => ⟨GProps.flatSegs_elem_ne_nil P pj hpj,
          GProps.flatSegs_names_ok P hwf pj hpj⟩)]
      exact foldSegs_good P [] hwf fun n _ => rfl
    simp only [unflatten_schema, hie, Bool.false_eq_true, if_false,
      lookupKey_setKey_self]
    rw [hbridge]
    simp [filter_setKey]
  · have hn' : is_nested_schema D = false := by
      cases h2 : is_nested_schema D
      · rfl
      · exact absurd h2 hn
    refine ⟨D, ?_, List.Perm.refl D⟩
    unfold roundTrip
    have hflat : flatten_schema fuel D = some (D, []) := by
      unfold flatten_schema
      rw [hn']
      simp
    rw [hflat, Option.some_bind]
    rfl

/-- Instance of the amended round trip: the object/leaf document `c1WD`
    comes back as a permutation of itself. -/
theorem roundtrip_perm_witness :
    ∃ O, roundTrip 10 c1WD = some O ∧ O.Perm c1WD :=
  roundtrip_perm c1WD c1WP 10 (by decide) (by decide) (by decide) (by decide)

/-- C1 (counterexample to the claim as stated): the claim's document
    class includes resolvable `$ref` properties, but on `c1RefD` the
    round trip rewrites property `a` from the `$ref` node to its
    expansion — the returned `properties` tree differs from the
    original, so `unflatten(flatten(D))` is not `D`. -/
theorem roundtrip_ref_not_identity :
    roundTrip 10 c1RefD = some c1RefOut ∧
    lookupKey c1RefOut propertiesK ≠ lookupKey c1RefD propertiesK := by
  constructor
  · decide
  · decide

/-- C3 (counterexample to the claim as stated): `c3D` is detected as
    nested — its property `a` is `type: "object"` with a `properties`
    sub-mapping — yet `flatten_schema` returns an empty path index
    while still transforming the document: the empty sub-mapping yields
    no leaves, and the top-level `properties` is replaced by `{}`. -/
theorem flatten_nested_empty_index :
    is_nested_schema c3D = true ∧
    flatten_schema 10 c3D = some ([(propertiesK, Json.obj [])], []) ∧
    [(propertiesK, Json.obj [])] ≠ c3D := by
  refine ⟨by decide, by decide, by decide⟩

/-- C3 (amended): over documents whose `properties` tree lies in the
    grammar `GProps` (whose object and array nodes carry non-empty
    sub-mappings), flattening succeeds and the returned path index is
    empty exactly when the document is not nested. -/
theorem flatten_index_empty_iff (D : List (Str × Json)) (P : GProps)
    (fuel : Nat)
    (hP : lookupKey D propertiesK = some (Json.obj P.toJson))
    (hwf : P.wf = true) (hfuel : P.fuelNeed ≤ fuel) :
    ∃ F m, flatten_schema fuel D = some (F, m) ∧
      (m = [] ↔ is_nested_schema D = false) := by
  by_cases hn : is_nested_schema D = true
  · have hPne := gprops_ne_nil_of_nested D P hP hn
    refine ⟨_, _, flatten_schema_good D P fuel hP hwf hfuel hn, ?_⟩
    have h1 := GProps.flatList_ne_nil P [] hwf hPne
    constructor
    · intro hm
      exfalso
      apply h1
      cases hq : P.flatList [] with
      | nil => rfl
      | cons a r =>
          rw [hq] at hm
          simp at hm
    · intro hfalse
      rw [hn] at hfalse
      simp at hfalse
  · have hn' : is_nested_schema D = false := by
      cases h2 : is_nested_schema D
      · rfl
      · exact absurd h2 hn
    refine ⟨D, [], ?_, by simp [hn']⟩
    unfold flatten_schema
    rw [hn']
    simp

/-- Instance of the amended index law on the array/leaf document
    `c3WD`. -/
theorem flatten_index_empty_iff_witness :
    ∃ F m, flatten_schema 10 c3WD = some (F, m) ∧
      (m = [] ↔ is_nested_schema c3WD = false) :=
  flatten_index_empty_iff c3WD c3WP 10 (by decide) (by decide) (by decide)

theorem schemaFieldsOf_dump (s : Schema) :
    schemaFieldsOf ((Schema.model_dump s).filter fun kv =>
      !(kv.1 = propertiesK : Bool)) =
    some (s.schema, s.description, s.class_, s.type, s.definitions) := rfl

theorem flatten_filter_props (D : List (Str × Json)) (fuel : Nat)
    (fd : List (Str × Json)) (pm : List (Str × Str))
    (hf : flatten_schema fuel D = some (fd, pm)) :
    fd.filter (fun kv => !(kv.1 = propertiesK : Bool)) =
      D.filter (fun kv => !(kv.1 = propertiesK : Bool)) := by
  unfold flatten_schema at hf
  split at hf
  · split at hf <;> try simp only [] at hf
    all_goals split at hf
    all_goals
      first
        | (simp only [Option.some.injEq, Prod.mk.injEq] at hf
           obtain ⟨h3, -⟩ := hf
           rw [← h3, filter_setKey])
        | (simp at hf
           done)
        | (split at hf
           · simp at hf
           · simp only [Option.some.injEq, Prod.mk.injEq] at hf
             obtain ⟨h3, -⟩ := hf
             rw [← h3, filter_setKey])
  · simp only [Option.some.injEq, Prod.mk.injEq] at hf
    obtain ⟨h3, -⟩ := hf
    rw [← h3]

/-- C8: whenever flattening the dumped document succeeds,
    `flatten_for_optimization` succeeds as well — a flat leaf that fails
    the three-field coercion (`type`, `inferenceType`, `instruction`
    all present with string values) is dropped, never raised on — and
    the returned properties are exactly the coercible flat leaves, each
    validated to a `SchemaProperty`, with the metadata fields and the
    path index passed through unchanged. -/
theorem flatten_for_optimization_drops (s : Schema) (fuel : Nat)
    (fd : List (Str × Json)) (pm : List (Str × Str))
    (hf : flatten_schema fuel s.model_dump = some (fd, pm)) :
    Schema.flatten_for_optimization fuel s =
      some (⟨s.schema, s.description, s.class_, s.type, s.definitions,
        (fpropsOf fd).filterMap fun kv =>
          (coerceProp kv.2).map fun p => (kv.1, PropVal.typed p)⟩, pm) := by
  unfold Schema.flatten_for_optimization
  rw [hf]
  have hsf : schemaFieldsOf (fd.filter fun kv =>
      !(kv.1 = propertiesK : Bool)) =
      some (s.schema, s.description, s.class_, s.type, s.definitions) := by
    rw [flatten_filter_props s.model_dump fuel fd pm hf]
    exact schemaFieldsOf_dump s
  simp only [hsf]
  rfl

/-- Instance: flattening `c8S` keeps the coercible leaf `a.good`, drops
    the malformed `a.bad` (missing `inferenceType` and `instruction`),
    and does not fail; the dropped leaf still appears in the path
    index. -/
theorem flatten_for_optimization_drops_witness :
    Schema.flatten_for_optimization 10 c8S =
      some (⟨c8S.schema, c8S.description, c8S.class_, c8S.type,
        c8S.definitions,
        (fpropsOf c8Fd).filterMap fun kv =>
          (coerceProp kv.2).map fun p => (kv.1, PropVal.typed p)⟩, c8Pm) ∧
    (fpropsOf c8Fd).filterMap (fun kv =>
        (coerceProp kv.2).map fun p => (kv.1, PropVal.typed p)) =
      [("a.good".data, PropVal.typed
        ⟨"string".data, "explicit".data, "desc".data⟩)] :=
  ⟨flatten_for_optimization_drops c8S 10 c8Fd c8Pm (by decide), by decide⟩

/-- C9: every property of the schema returned by
    `flatten_for_optimization` is a typed leaf exposing exactly the
    three fields `type`, `inferenceType`, `instruction` — its
    serialization is precisely that three-key object, so any other key
    present on the source flat leaf is absent — and it arises from a
    flat leaf of the flattened document that coerces to those three
    string fields. -/
theorem flat_leaves_three_fields (s : Schema) (fuel : Nat) (t : Schema)
    (pm : List (Str × Str))
    (h : Schema.flatten_for_optimization fuel s = some (t, pm)) :
    ∀ nv ∈ t.properties, ∃ p : SchemaProperty, ∃ fd srcLeaf,
      nv.2 = PropVal.typed p ∧
      flatten_schema fuel s.model_dump = some (fd, pm) ∧
      (nv.1, srcLeaf) ∈ fpropsOf fd ∧
      coerceProp srcLeaf = some p ∧
      nv.2.dumpJson = Json.obj
        [(typeK, Json.str p.type), (inferenceTypeK, Json.str p.inferenceType),
         (instructionK, Json.str p.instruction)] := by
  intro nv hmem
  unfold Schema.flatten_for_optimization at h
  split at h
  · simp at h
  · rename_i fd0 pm0 heq
    split at h
    · rename_i ikvs hik
      split at h
      · simp at h
      · simp only [Option.some.injEq, Prod.mk.injEq] at h
        obtain ⟨ht, hpm⟩ := h
        subst hpm
        rw [← ht] at hmem
        simp only [List.mem_filterMap] at hmem
        obtain ⟨kv, hkv, hcoe⟩ := hmem
        cases hc : coerceProp kv.2 with
        | none =>
            rw [hc] at hcoe
            simp at hcoe
        | some p =>
            rw [hc] at hcoe
            simp only [Option.map_some'] at hcoe
            injection hcoe with hnv
            subst hnv
            refine ⟨p, fd0, kv.2, rfl, heq, ?_, hc, rfl⟩
            simp only [fpropsOf, hik]
            exact hkv
    · split at h
      · simp at h
      · simp only [Option.some.injEq, Prod.mk.injEq] at h
        obtain ⟨ht, hpm⟩ := h
        rw [← ht] at hmem
        simp at hmem

/-- Instance: the single leaf retained from `c9S` (whose source leaf
    carried an extra `unit` key) serializes to exactly the three
    optimizer fields. -/
theorem flat_leaves_three_fields_witness :
    ∃ p : SchemaProperty, ∃ fd srcLeaf,
      c9NV.2 = PropVal.typed p ∧
      flatten_schema 10 c9S.model_dump = some (fd, c9Pm) ∧
      (c9NV.1, srcLeaf) ∈ fpropsOf fd ∧
      coerceProp srcLeaf = some p ∧
      c9NV.2.dumpJson = Json.obj
        [(typeK, Json.str p.type), (inferenceTypeK, Json.str p.inferenceType),
         (instructionK, Json.str p.instruction)] :=
  flat_leaves_three_fields c9S 10 c9T c9Pm (by decide) c9NV (by decide)
